import Mathlib

/-!
Verification of the Snowflake key/value store (JavaScript sources) against its
natural-language specification.  The JavaScript data model and operations are
shallowly embedded: JS values become the inductive `JsValue` (numbers are
modelled as integers), JS objects used as dictionaries become association
lists where assignment prepends and lookup takes the first binding, and the
mutable class state of `SnowflakeCore`, `SnowflakeAol` and `SnowflakeCLI`
becomes explicit state records threaded through the operations.  External
dependencies (the SHA-256 digest from node:crypto, the msgpack-lite codec,
and the ECMAScript JSON built-ins) are not repository code; the digest is a
parameter of the operations that use it, and the other two are modelled from
their published specifications.
-/

namespace Spec2Proof

/-- A JavaScript value tree as stored by the engine: `null`, booleans, numbers
(modelled as integers; the engine never computes with them), strings, byte
strings (Node `Buffer` contents), arrays, and string-keyed objects. -/
inductive JsValue where
  | vNull : JsValue
  | vBool : Bool → JsValue
  | vNum : Int → JsValue
  | vStr : String → JsValue
  | vBytes : List Nat → JsValue
  | vArr : List JsValue → JsValue
  | vMap : List (String × JsValue) → JsValue
deriving Repr

/-- JavaScript truthiness of a stored value: `null`, `false`, `0` and `""` are
falsy; every object (arrays, maps, Buffers) is truthy. -/
def jsTruthy : JsValue → Bool
  | .vNull => false
  | .vBool b => b
  | .vNum n => decide (n ≠ 0)
  | .vStr s => decide (s ≠ "")
  | .vBytes _ => true
  | .vArr _ => true
  | .vMap _ => true

/-! ## Character classes used by `sanitizeKey`

`SnowflakeCore.sanitizeKey` (SnowflakeCore.js:760-766) first replaces every
character matching the JS regex class `\s` by `_`, then deletes every
character outside `[a-zA-Z0-9\-_]`, and finally (when `trim` is set) strips
leading and trailing runs of `_`. -/

/-- The code points matched by the JavaScript regex class `\s`
(WhiteSpace and LineTerminator productions of ECMA-262). -/
def isJsWhitespace (c : Char) : Bool :=
  decide (c.toNat = 9) || decide (c.toNat = 10) || decide (c.toNat = 11) ||
  decide (c.toNat = 12) || decide (c.toNat = 13) || decide (c.toNat = 32) ||
  decide (c.toNat = 160) || decide (c.toNat = 5760) ||
  decide (8192 ≤ c.toNat ∧ c.toNat ≤ 8202) ||
  decide (c.toNat = 8232) || decide (c.toNat = 8233) ||
  decide (c.toNat = 8239) || decide (c.toNat = 8287) ||
  decide (c.toNat = 12288) || decide (c.toNat = 65279)

/-- The characters kept by `sanitizeKey`: the JS regex class `[a-zA-Z0-9\-_]`. -/
def isKeyAllowed (c : Char) : Bool :=
  decide (97 ≤ c.toNat ∧ c.toNat ≤ 122) ||
  decide (65 ≤ c.toNat ∧ c.toNat ≤ 90) ||
  decide (48 ≤ c.toNat ∧ c.toNat ≤ 57) ||
  decide (c.toNat = 95) || decide (c.toNat = 45)

/-- Removal of a maximal trailing run of characters satisfying `p`
(the JS regex alternative `_+$` of `sanitizeKey`). -/
def dropTrailWhile (p : Char → Bool) : List Char → List Char
  | [] => []
  | a :: t =>
    let r := dropTrailWhile p t
    if r.isEmpty && p a then [] else a :: r

/-- `sanitizeKey` on character lists: replace `\s` by `_`, drop everything
outside `[a-zA-Z0-9\-_]`, then optionally strip edge underscores
(SnowflakeCore.js:760-766). -/
def sanitizeKeyList (cs : List Char) (trim : Bool) : List Char :=
  let replaced := cs.map fun c => if isJsWhitespace c then '_' else c
  let filtered := replaced.filter isKeyAllowed
  if trim then dropTrailWhile (fun c => c = '_') (filtered.dropWhile (fun c => c = '_'))
  else filtered

/-- `SnowflakeCore.sanitizeKey` on strings; `trim` defaults to `false` at the
JS call sites that omit it. -/
def sanitizeKey (s : String) (trim : Bool := false) : String :=
  ⟨sanitizeKeyList s.data trim⟩

theorem isKeyAllowed_not_ws {c : Char} (h : isKeyAllowed c = true) :
    isJsWhitespace c = false := by
  simp only [isKeyAllowed, Bool.or_eq_true, decide_eq_true_eq] at h
  simp only [isJsWhitespace, Bool.or_eq_false_iff, decide_eq_false_iff_not]
  omega

theorem sanitizeKeyList_mem_allowed {cs : List Char} {trim : Bool} {c : Char}
    (h : c ∈ sanitizeKeyList cs trim) : isKeyAllowed c = true := by
  unfold sanitizeKeyList at h
  by_cases ht : trim
  · subst ht
    simp only [if_pos] at h
    have hmem : c ∈ (cs.map fun c => if isJsWhitespace c then '_' else c).filter isKeyAllowed := by
      have h1 : ∀ l : List Char, c ∈ dropTrailWhile (fun c => c = '_') l → c ∈ l := by
        intro l
        induction l with
        | nil => simp [dropTrailWhile]
        | cons a t ih =>
          simp only [dropTrailWhile]
          intro hc
          by_cases hcond : ((dropTrailWhile (fun c => c = '_') t).isEmpty && (a = '_' : Bool)) = true
          · simp [hcond] at hc
          · simp only [hcond, if_neg, Bool.not_eq_true] at hc
            rcases List.mem_cons.mp hc with h | h
            · simp [h]
            · exact List.mem_cons_of_mem _ (ih h)
      have h2 := h1 _ h
      exact (List.dropWhile_sublist _).mem h2
    exact List.of_mem_filter hmem
  · simp only [ht, if_neg, Bool.false_eq_true, not_false_iff] at h
    exact List.of_mem_filter h

theorem sanitizeKeyList_of_allowed {l : List Char}
    (hall : ∀ c ∈ l, isKeyAllowed c = true) : sanitizeKeyList l false = l := by
  unfold sanitizeKeyList
  have hmap : l.map (fun c => if isJsWhitespace c then '_' else c) = l := by
    have hcg : ∀ c ∈ l, (if isJsWhitespace c then '_' else c) = c := by
      intro c hc
      rw [isKeyAllowed_not_ws (hall c hc)]
      simp
    rw [List.map_congr_left hcg, List.map_id']
  simp only [Bool.false_eq_true, if_neg, not_false_iff]
  rw [hmap, List.filter_eq_self.mpr hall]

theorem sanitizeKeyList_idem (cs : List Char) :
    sanitizeKeyList (sanitizeKeyList cs false) false = sanitizeKeyList cs false :=
  sanitizeKeyList_of_allowed fun _ hc => sanitizeKeyList_mem_allowed hc

theorem head_dropWhile_ne {p : Char → Bool} {l : List Char} {a : Char}
    (h : (l.dropWhile p).head? = some a) : p a = false := by
  induction l with
  | nil => simp [List.dropWhile] at h
  | cons x t ih =>
    rw [List.dropWhile_cons] at h
    by_cases hp : p x = true
    · simp only [hp, if_pos] at h
      exact ih h
    · simp only [hp, if_neg, Bool.not_eq_true] at h
      simp only [List.head?_cons, Option.some_inj] at h
      rw [← h]
      exact Bool.not_eq_true _ ▸ hp

theorem getLast_dropTrailWhile_ne {p : Char → Bool} {l : List Char} {a : Char}
    (h : (dropTrailWhile p l).getLast? = some a) : p a = false := by
  induction l with
  | nil => simp [dropTrailWhile] at h
  | cons x t ih =>
    simp only [dropTrailWhile] at h
    by_cases hcond : ((dropTrailWhile p t).isEmpty && p x) = true
    · simp [hcond] at h
    · simp only [hcond, if_neg, Bool.not_eq_true] at h
      rcases hr : dropTrailWhile p t with _ | ⟨b, t2⟩
      · rw [hr] at h
        simp only [List.getLast?_singleton, Option.some_inj] at h
        rw [hr] at hcond
        simp only [List.isEmpty_nil, Bool.true_and] at hcond
        rw [← h]
        exact Bool.not_eq_true _ ▸ hcond
      · rw [hr] at h
        rw [List.getLast?_cons_cons] at h
        exact ih (hr ▸ h)

theorem head_dropTrailWhile {p : Char → Bool} {l : List Char} {a : Char}
    (h : (dropTrailWhile p l).head? = some a) : l.head? = some a := by
  cases l with
  | nil => simp [dropTrailWhile] at h
  | cons x t =>
    simp only [dropTrailWhile] at h
    by_cases hcond : ((dropTrailWhile p t).isEmpty && p x) = true
    · simp [hcond] at h
    · simp only [hcond, if_neg, Bool.not_eq_true, List.head?_cons, Option.some_inj] at h
      simp [h]

theorem sanitizeKeyList_trim_edges (cs : List Char) :
    (sanitizeKeyList cs true).head? ≠ some '_' ∧
    (sanitizeKeyList cs true).getLast? ≠ some '_' := by
  constructor
  · intro h
    unfold sanitizeKeyList at h
    simp only [if_pos] at h
    have h2 := head_dropTrailWhile h
    have h3 := head_dropWhile_ne h2
    simp at h3
  · intro h
    unfold sanitizeKeyList at h
    simp only [if_pos] at h
    have h2 := getLast_dropTrailWhile_ne h
    simp at h2

/-- C9: `sanitizeKey` is idempotent, its output only contains characters of
`[A-Za-z0-9_-]` (whitespace having been replaced by `_` before filtering), and
with `trim=true` the output has no leading or trailing underscore. -/
theorem c9_sanitizeKey_idempotent_allowed_trimmed (x : String) :
    sanitizeKey (sanitizeKey x) = sanitizeKey x ∧
    (∀ c ∈ (sanitizeKey x).data, isKeyAllowed c = true) ∧
    (sanitizeKey x true).data.head? ≠ some '_' ∧
    (sanitizeKey x true).data.getLast? ≠ some '_' := by
  refine ⟨?_, ?_, ?_, ?_⟩
  · show (⟨sanitizeKeyList (sanitizeKeyList x.data false) false⟩ : String)
      = (⟨sanitizeKeyList x.data false⟩ : String)
    rw [sanitizeKeyList_idem]
  · exact fun c hc => @sanitizeKeyList_mem_allowed x.data false c hc
  · exact (sanitizeKeyList_trim_edges x.data).1
  · exact (sanitizeKeyList_trim_edges x.data).2

/-! ## MessagePack encoded size

`Snowflake.toBuffer` delegates to the external msgpack-lite package; the
engine only ever uses the *length* of the encoded buffer (the `size` field of
the key lookup metadata).  Modelled from the spec: §4.A requires the wire
format of MessagePack, so the byte counts below follow the MessagePack
format specification (fixint/int8..int64, fixstr/str8..str32, bin8..bin32,
fixarray/array16/array32, fixmap/map16/map32). -/

def strBytes (s : String) : Nat := s.utf8ByteSize

mutual

def msgpackLen : JsValue → Nat
  | .vNull => 1
  | .vBool _ => 1
  | .vNum n =>
    if -32 ≤ n ∧ n < 128 then 1
    else if -128 ≤ n ∧ n < 256 then 2
    else if -32768 ≤ n ∧ n < 65536 then 3
    else if -2147483648 ≤ n ∧ n < 4294967296 then 5
    else 9
  | .vStr s =>
    let l := strBytes s
    (if l < 32 then 1 else if l < 256 then 2 else if l < 65536 then 3 else 5) + l
  | .vBytes bs =>
    let l := bs.length
    (if l < 256 then 2 else if l < 65536 then 3 else 5) + l
  | .vArr xs =>
    (if xs.length < 16 then 1 else if xs.length < 65536 then 3 else 5) + msgpackLenList xs
  | .vMap kvs =>
    (if kvs.length < 16 then 1 else if kvs.length < 65536 then 3 else 5) + msgpackLenMap kvs

def msgpackLenList : List JsValue → Nat
  | [] => 0
  | v :: t => msgpackLen v + msgpackLenList t

def msgpackLenMap : List (String × JsValue) → Nat
  | [] => 0
  | (k, v) :: t =>
    (let l := strBytes k
     (if l < 32 then 1 else if l < 256 then 2 else if l < 65536 then 3 else 5) + l) +
    msgpackLen v + msgpackLenMap t

end

/-! ## The core lookup state (`SnowflakeCore`)

JS objects used as dictionaries (`#lookup.key`, `#lookup.value`) are modelled
as association lists: assignment prepends a binding, lookup returns the first
binding.  An entry explicitly assigned `undefined` (which is how `remove`
clears entries) is modelled as a binding to `none`.  The SHA-256 digest (in
its hex-string form, as used for `#lookup.value` keys) is an external
function from node:crypto and is a parameter `hashHex` of every operation
that hashes. -/

/-- First-binding association lookup, the observable behaviour of reading a
property of a JS object that is only ever written by prepending below. -/
def assocFind {α : Type} (l : List (String × α)) (k : String) : Option α :=
  match l with
  | [] => none
  | (k2, v) :: t => if k2 = k then some v else assocFind t k

/-- Slot metadata kept in `#lookup.key` (SnowflakeCore.js:191-206). -/
structure KeyMeta where
  meid : Nat
  name : String
  hashStr : String
  size : Nat
  position : Int
  length : Nat
deriving Repr

/-- A free slot pushed to `#lookup.trash` by `remove`. -/
structure TrashSlot where
  size : Nat
  position : Int
  length : Nat
deriving Repr, DecidableEq

/-- A message posted to the AOL worker over its channel
(`worker.postMessage` in `askWorker`, SnowflakeCore.js:824-840). -/
structure AolMsg where
  action : String
  key : String
  value : JsValue

/-- The mutable state of `SnowflakeCore` that the claims touch: the two lookup
tables, the free (trash) list, the round-robin MEID counter and size, and the
list of messages posted to the AOL worker so far. -/
structure Core where
  keyTbl : List (String × Option KeyMeta)
  valTbl : List (String × Option JsValue)
  trash : List TrashSlot
  currentMeid : Int
  meidsSize : Nat
  aolMsgs : List AolMsg

/-- A fresh core: empty lookup tables, `#current_meid = -1`, configured with
`n` MEID shards, no AOL traffic yet. -/
def Core.init (n : Nat) : Core :=
  { keyTbl := [], valTbl := [], trash := [], currentMeid := -1, meidsSize := n, aolMsgs := [] }

/-- `lookupKey` (SnowflakeCore.js:800-802): `#lookup.key[key] || {}`; an
entry cleared to `undefined` behaves like an absent one, both yield `{}`
(here `none`). -/
def lookupKey (c : Core) (k : String) : Option KeyMeta :=
  match assocFind c.keyTbl k with
  | some (some m) => some m
  | _ => none

/-- `exist` (SnowflakeCore.js:820-822): `lookupKey(key).length > 0`.  The
stored metadata always carries `length = 36 + size > 0`, while `({}).length`
is `undefined`, which compares false. -/
def exist (c : Core) (k : String) : Bool :=
  match lookupKey c k with
  | some m => decide (0 < m.length)
  | none => false

/-- `lookupValue` (SnowflakeCore.js:810-812): `#lookup.value[hash] ||
undefined` — a falsy stored value (including an entry cleared to
`undefined`) comes back as `undefined` (`none`). -/
def lookupValue (c : Core) (h : String) : Option JsValue :=
  match assocFind c.valTbl h with
  | some (some v) => if jsTruthy v then some v else none
  | _ => none

/-- `#setLookupKey` (SnowflakeCore.js:191-206): store slot metadata with
`length = 36 + size`. -/
def setLookupKey (c : Core) (k : String) (meidIdx : Nat) (size : Nat)
    (position : Int) (hstr : String) : Core :=
  { c with keyTbl :=
      (k, some { meid := meidIdx, name := k, hashStr := hstr, size := size,
                 position := position, length := 36 + size }) :: c.keyTbl }

/-- `#setLookupValue` (SnowflakeCore.js:214-219). -/
def setLookupValue (c : Core) (h : String) (v : JsValue) : Core :=
  { c with valTbl := (h, some v) :: c.valTbl }

/-- `nextMeid` (SnowflakeCore.js:785-791): with at most one shard return 0;
otherwise pre-increment `#current_meid`, reset it to −1 when it reaches the
shard count, and return `max(#current_meid, 0)`. -/
def nextMeid (c : Core) : Nat × Core :=
  if c.meidsSize ≤ 1 then (0, c)
  else
    let c1 : Int := c.currentMeid + 1
    let c2 : Int := if (c.meidsSize : Int) ≤ c1 then -1 else c1
    ((max c2 0).toNat, { c with currentMeid := c2 })

/-- `setUnsafe` (SnowflakeCore.js:854-873): no sanitization, no AOL traffic;
update the value if the key exists, otherwise allocate the next shard and
insert into both tables with `position = -1`. -/
def setUnsafe (hashHex : String → String) (c : Core) (k : String) (v : JsValue) :
    Nat × Core :=
  if k.length = 0 then (0, c)
  else
    let h := hashHex k
    if exist c k then (1, setLookupValue c h v)
    else
      let size := msgpackLen v
      let p := nextMeid c
      let c2 := setLookupKey p.2 k p.1 size (-1) h
      (2, setLookupValue c2 h v)

/-- `set` (SnowflakeCore.js:882-905): sanitize the key; if non-empty, post a
`set` message to the AOL worker (the `confirm` closure always succeeds) and
run `setUnsafe`; otherwise return 0. -/
def set (hashHex : String → String) (c : Core) (k : String) (v : JsValue) :
    Nat × Core :=
  let k2 := sanitizeKey k
  if k2.length ≠ 0 then
    let c1 := { c with aolMsgs :=
      c.aolMsgs ++ [{ action := "set", key := k2, value := v }] }
    setUnsafe hashHex c1 k2 v
  else (0, c)

/-- `get` (SnowflakeCore.js:914-918): hash the raw key (no sanitization),
look the value up by hex digest, return the default when the lookup comes
back `undefined`. -/
def get (hashHex : String → String) (c : Core) (k : String) (def_ : JsValue) :
    JsValue :=
  match lookupValue c (hashHex k) with
  | some v => v
  | none => def_

/-- `remove` (SnowflakeCore.js:936-949): absent key → false; otherwise push
a free slot carrying the metadata sizes, clear both table entries to
`undefined`, and return true.  Nothing is posted to the AOL worker. -/
def remove (hashHex : String → String) (c : Core) (k : String) : Bool × Core :=
  if exist c k then
    match lookupKey c k with
    | some m =>
      let h := hashHex k
      let c1 := { c with trash :=
        c.trash ++ [({ size := m.size, position := m.position, length := m.length } : TrashSlot)] }
      let c2 := { c1 with keyTbl := (k, none) :: c1.keyTbl }
      let c3 := { c2 with valTbl := (h, none) :: c2.valTbl }
      (true, c3)
    | none => (false, c)
  else (false, c)

/-! ## Traces of core mutations (claim C1) -/

/-- A mutation issued through the public core API. -/
inductive CoreOp where
  | opSet (k : String) (v : JsValue)
  | opRemove (k : String)

def runOp (hashHex : String → String) (c : Core) : CoreOp → Core
  | .opSet k v => (set hashHex c k v).2
  | .opRemove k => (remove hashHex c k).2

def runOps (hashHex : String → String) (c : Core) (ops : List CoreOp) : Core :=
  ops.foldl (runOp hashHex) c

/-- The specification-side fate of one key after a trace: `present v` when the
last successful `set` whose sanitized key is `k` came after any `remove k`,
otherwise `absent`. -/
inductive KeyFate where
  | absent
  | present (v : JsValue)

def fateStep (k : String) (f : KeyFate) : CoreOp → KeyFate
  | .opSet k2 v =>
    if sanitizeKey k2 = k ∧ (sanitizeKey k2).length ≠ 0 then .present v else f
  | .opRemove k2 => if k2 = k then .absent else f

def keyFate (k : String) (ops : List CoreOp) : KeyFate :=
  ops.foldl (fateStep k) .absent

/-- Coupling between the core state and the fate of a tracked key. -/
def tracked (hashHex : String → String) (k : String) (c : Core) : KeyFate → Prop
  | .absent => lookupKey c k = none ∧ lookupValue c (hashHex k) = none
  | .present v => (∃ m, lookupKey c k = some m ∧ 0 < m.length) ∧
      assocFind c.valTbl (hashHex k) = some (some v)

theorem exist_true_of_tracked_present {hashHex : String → String} {k : String}
    {c : Core} {v : JsValue} (h : tracked hashHex k c (.present v)) :
    exist c k = true := by
  obtain ⟨⟨m, hm, hlen⟩, _⟩ := h
  simp [exist, hm, hlen]

theorem exist_false_of_tracked_absent {hashHex : String → String} {k : String}
    {c : Core} (h : tracked hashHex k c .absent) : exist c k = false := by
  obtain ⟨hm, _⟩ := h
  simp [exist, hm]

theorem assocFind_cons {α : Type} (k2 : String) (v : α) (t : List (String × α))
    (k : String) : assocFind ((k2, v) :: t) k = if k2 = k then some v else assocFind t k :=
  rfl

theorem nextMeid_keyTbl (c : Core) : (nextMeid c).2.keyTbl = c.keyTbl := by
  unfold nextMeid
  split <;> rfl

theorem nextMeid_valTbl (c : Core) : (nextMeid c).2.valTbl = c.valTbl := by
  unfold nextMeid
  split <;> rfl

theorem lookupKey_of_keyTbl {c c2 : Core} (h : c.keyTbl = c2.keyTbl) (k : String) :
    lookupKey c k = lookupKey c2 k := by
  unfold lookupKey
  rw [h]

theorem lookupValue_of_valTbl {c c2 : Core} (h : c.valTbl = c2.valTbl) (s : String) :
    lookupValue c s = lookupValue c2 s := by
  unfold lookupValue
  rw [h]

theorem tracked_of_tables {hashHex : String → String} {k : String} {c c2 : Core}
    {f : KeyFate} (hk : c.keyTbl = c2.keyTbl) (hv : c.valTbl = c2.valTbl)
    (h : tracked hashHex k c f) : tracked hashHex k c2 f := by
  cases f with
  | absent =>
    obtain ⟨ha, hb⟩ := h
    exact ⟨(lookupKey_of_keyTbl hk.symm k).trans ha,
           (lookupValue_of_valTbl hv.symm _).trans hb⟩
  | present v =>
    obtain ⟨⟨m, hm, hlm⟩, hb⟩ := h
    exact ⟨⟨m, (lookupKey_of_keyTbl hk.symm k).trans hm, hlm⟩, hv ▸ hb⟩

theorem tracked_step (hashHex : String → String) (hinj : Function.Injective hashHex)
    (k : String) (c : Core) (f : KeyFate) (op : CoreOp)
    (h : tracked hashHex k c f) :
    tracked hashHex k (runOp hashHex c op) (fateStep k f op) := by
  cases op with
  | opSet k2 v =>
    simp only [runOp, set, fateStep]
    by_cases hlen : (sanitizeKey k2).length ≠ 0
    · rw [if_pos hlen]
      have h1 : tracked hashHex k
          ({ c with aolMsgs :=
            c.aolMsgs ++ [{ action := "set", key := sanitizeKey k2, value := v }] }) f :=
        tracked_of_tables rfl rfl h
      generalize hc1 : ({ c with aolMsgs :=
        c.aolMsgs ++ [{ action := "set", key := sanitizeKey k2, value := v }] } : Core) = c1 at h1
      have hkt : c1.keyTbl = c.keyTbl := by rw [← hc1]
      have hvt : c1.valTbl = c.valTbl := by rw [← hc1]
      by_cases hk : sanitizeKey k2 = k
      · rw [if_pos ⟨hk, hlen⟩, hk]
        rw [hk] at hlen
        simp only [setUnsafe]
        rw [if_neg (by simpa using hlen)]
        by_cases hex : exist c1 k = true
        · rw [if_pos hex]
          rcases hme : lookupKey c1 k with _ | m
          · simp [exist, hme] at hex
          · refine ⟨⟨m, ?_, ?_⟩, ?_⟩
            · exact hme
            · simp only [exist, hme] at hex
              exact of_decide_eq_true hex
            · simp [setLookupValue, assocFind_cons]
        · rw [if_neg hex]
          refine ⟨⟨{ meid := (nextMeid c1).1, name := k, hashStr := hashHex k,
                     size := msgpackLen v, position := -1,
                     length := 36 + msgpackLen v }, ?_, ?_⟩, ?_⟩
          · simp [setLookupValue, setLookupKey, lookupKey, assocFind_cons]
          · simp
          · simp [setLookupValue, setLookupKey, assocFind_cons]
      · have hhash : hashHex (sanitizeKey k2) ≠ hashHex k := fun he => hk (hinj he)
        rw [if_neg (by simp [hk])]
        simp only [setUnsafe]
        rw [if_neg (by simpa using hlen)]
        by_cases hex : exist c1 (sanitizeKey k2) = true
        · rw [if_pos hex]
          cases f with
          | absent =>
            obtain ⟨ha, hb⟩ := h
            refine ⟨?_, ?_⟩
            · simpa [lookupKey, setLookupValue, hkt] using ha
            · simpa [lookupValue, setLookupValue, assocFind_cons, hhash, hvt] using hb
          | present w =>
            obtain ⟨⟨m, hm, hlm⟩, hb⟩ := h
            refine ⟨⟨m, ?_, hlm⟩, ?_⟩
            · simpa [lookupKey, setLookupValue, hkt] using hm
            · simpa [setLookupValue, assocFind_cons, hhash, hvt] using hb
        · rw [if_neg hex]
          cases f with
          | absent =>
            obtain ⟨ha, hb⟩ := h
            refine ⟨?_, ?_⟩
            · simpa [lookupKey, setLookupValue, setLookupKey, assocFind_cons, hk,
                     nextMeid_keyTbl, hkt] using ha
            · simpa [lookupValue, setLookupValue, setLookupKey, assocFind_cons, hhash,
                     nextMeid_valTbl, hvt] using hb
          | present w =>
            obtain ⟨⟨m, hm, hlm⟩, hb⟩ := h
            refine ⟨⟨m, ?_, hlm⟩, ?_⟩
            · simpa [lookupKey, setLookupValue, setLookupKey, assocFind_cons, hk,
                     nextMeid_keyTbl, hkt] using hm
            · simpa [setLookupValue, setLookupKey, assocFind_cons, hhash,
                     nextMeid_valTbl, hvt] using hb
    · rw [if_neg hlen]
      simp only [ne_eq, not_not] at hlen
      rw [if_neg (by rintro ⟨-, hx⟩; exact hx hlen)]
      simpa [hlen] using h
  | opRemove k2 =>
    simp only [runOp, remove, fateStep]
    by_cases hk : k2 = k
    · rw [if_pos hk, hk]
      rw [hk] at *
      by_cases hex : exist c k = true
      · rw [if_pos hex]
        rcases hme : lookupKey c k with _ | m
        · simp [exist, hme] at hex
        · refine ⟨?_, ?_⟩
          · simp [lookupKey, assocFind_cons]
          · simp [lookupValue, assocFind_cons]
      · rw [if_neg hex]
        cases f with
        | absent => exact h
        | present w =>
          exact absurd (exist_true_of_tracked_present h) (by simpa using hex)
    · rw [if_neg hk]
      by_cases hex : exist c k2 = true
      · rw [if_pos hex]
        rcases hme : lookupKey c k2 with _ | m
        · simp [exist, hme] at hex
        · have hhash : hashHex k2 ≠ hashHex k := fun he => hk (hinj he)
          cases f with
          | absent =>
            obtain ⟨ha, hb⟩ := h
            refine ⟨?_, ?_⟩
            · simpa [lookupKey, assocFind_cons, hk] using ha
            · simpa [lookupValue, assocFind_cons, hhash] using hb
          | present w =>
            obtain ⟨⟨m2, hm, hlm⟩, hb⟩ := h
            refine ⟨⟨m2, ?_, hlm⟩, ?_⟩
            · simpa [lookupKey, assocFind_cons, hk] using hm
            · simpa [assocFind_cons, hhash] using hb
      · rw [if_neg hex]
        exact h

theorem tracked_runOps (hashHex : String → String) (hinj : Function.Injective hashHex)
    (k : String) (ops : List CoreOp) (c : Core) (f : KeyFate)
    (h : tracked hashHex k c f) :
    tracked hashHex k (runOps hashHex c ops) (List.foldl (fateStep k) f ops) := by
  induction ops generalizing c f with
  | nil => exact h
  | cons op t ih =>
    exact ih _ _ (tracked_step hashHex hinj k c f op h)

/-- C1 (amended): for every trace of `set`/`remove` operations starting from a
fresh core and any key `K`, `get(K, d)` returns the value `v` of the last
successful `set` whose *sanitized* key equals `K` — provided `v` is truthy and
no `remove(K)` came later; it returns the default `d` when `K` was never set,
when `K` was removed and not set again, or when the last value stored is falsy
(`null`, `false`, `0`, `""`).  (The unamended claim fails on falsy values and
on keys that sanitization rewrites; see the counterexample.) -/
theorem c1_get_returns_last_truthy_set (hashHex : String → String)
    (hinj : Function.Injective hashHex) (n : Nat) (ops : List CoreOp)
    (k : String) (d : JsValue) :
    get hashHex (runOps hashHex (Core.init n) ops) k d =
      (match keyFate k ops with
       | .present v => if jsTruthy v then v else d
       | .absent => d) := by
  have h0 : tracked hashHex k (Core.init n) .absent := ⟨rfl, rfl⟩
  have hf := tracked_runOps hashHex hinj k ops (Core.init n) .absent h0
  rcases hfe : keyFate k ops with _ | v
  · rw [show List.foldl (fateStep k) KeyFate.absent ops = keyFate k ops from rfl, hfe] at hf
    obtain ⟨-, hb⟩ := hf
    simp [get, hb]
  · rw [show List.foldl (fateStep k) KeyFate.absent ops = keyFate k ops from rfl, hfe] at hf
    obtain ⟨-, hb⟩ := hf
    by_cases htr : jsTruthy v = true
    · simp [get, lookupValue, hb, htr]
    · simp only [Bool.not_eq_true] at htr
      simp [get, lookupValue, hb, htr]

/-- C1 counterexample: the claim as stated fails twice on the code.
(1) `set "k" false` succeeds (returns 2) yet `get "k" "d"` returns the default
`"d"`, because `lookupValue` collapses falsy stored values to `undefined`.
(2) `set "a b" "v"` succeeds (the key is sanitized to `"a_b"`) yet
`get "a b" "d"` returns the default, because `get` hashes the raw key. -/
theorem c1_counterexample :
    (set id (Core.init 1) "k" (.vBool false)).1 = 2 ∧
    get id (set id (Core.init 1) "k" (.vBool false)).2 "k" (.vStr "d") = .vStr "d" ∧
    JsValue.vStr "d" ≠ JsValue.vBool false ∧
    (set id (Core.init 1) "a b" (.vStr "v")).1 = 2 ∧
    get id (set id (Core.init 1) "a b" (.vStr "v")).2 "a b" (.vStr "d") = .vStr "d" ∧
    JsValue.vStr "d" ≠ JsValue.vStr "v" := by
  refine ⟨rfl, rfl, ?_, rfl, rfl, ?_⟩
  · intro hx
    exact JsValue.noConfusion hx
  · intro hx
    injection hx with hx2
    simp at hx2

/-- Witness for `c1_get_returns_last_truthy_set` at the identity digest and a
concrete three-operation trace. -/
theorem c1_witness :
    Function.Injective (fun s : String => s) ∧
    get (fun s : String => s)
        (runOps (fun s : String => s) (Core.init 2)
          [.opSet "a" (.vNum 5), .opSet "b" (.vNum 7), .opRemove "b"]) "a" .vNull
      = .vNum 5 := by
  have hinj : Function.Injective (fun s : String => s) := fun a b hab => hab
  refine ⟨hinj, ?_⟩
  have h := c1_get_returns_last_truthy_set (fun s : String => s) hinj 2
    [.opSet "a" (.vNum 5), .opSet "b" (.vNum 7), .opRemove "b"] "a" .vNull
  exact h.trans (by rfl)

/-- C2 (amended): for a live key, `remove` pushes a free slot carrying the
slot metadata, clears both lookup-table entries (assigning `undefined`, here
`none`), and returns true — but it posts *nothing* to the AOL worker, so the
removal is never enqueued to the append-only log; for an absent key it
returns false and leaves the state unchanged. -/
theorem c2_remove_effects (hashHex : String → String) (c : Core) (k : String) :
    (exist c k = false → remove hashHex c k = (false, c)) ∧
    (exist c k = true →
      ∃ m, lookupKey c k = some m ∧
        (remove hashHex c k).1 = true ∧
        (remove hashHex c k).2.trash =
          c.trash ++ [{ size := m.size, position := m.position, length := m.length }] ∧
        assocFind (remove hashHex c k).2.keyTbl k = some none ∧
        assocFind (remove hashHex c k).2.valTbl (hashHex k) = some none ∧
        exist (remove hashHex c k).2 k = false ∧
        lookupValue (remove hashHex c k).2 (hashHex k) = none ∧
        (remove hashHex c k).2.aolMsgs = c.aolMsgs) := by
  constructor
  · intro hex
    unfold remove
    rw [if_neg (by simp [hex])]
  · intro hex
    rcases hme : lookupKey c k with _ | m
    · simp [exist, hme] at hex
    · refine ⟨m, rfl, ?_⟩
      unfold remove
      rw [if_pos hex, hme]
      refine ⟨rfl, rfl, ?_, ?_, ?_, ?_, rfl⟩
      · simp [assocFind_cons]
      · simp [assocFind_cons]
      · simp [exist, lookupKey, assocFind_cons]
      · simp [lookupValue, assocFind_cons]

/-- C2 counterexample: a concrete live key for which `remove` returns true
while the list of messages posted to the AOL worker is left untouched — no
`remove` operation is ever enqueued, refuting the claim that every mutation
visible to readers is enqueued to the AOL before `remove` returns success. -/
theorem c2_counterexample :
    (remove id (set id (Core.init 1) "k" (.vNum 1)).2 "k").1 = true ∧
    (remove id (set id (Core.init 1) "k" (.vNum 1)).2 "k").2.aolMsgs =
      [{ action := "set", key := "k", value := .vNum 1 }] ∧
    ∀ msg ∈ (remove id (set id (Core.init 1) "k" (.vNum 1)).2 "k").2.aolMsgs,
      msg.action ≠ "remove" := by
  refine ⟨rfl, rfl, ?_⟩
  intro msg hmsg
  have he : (remove id (set id (Core.init 1) "k" (.vNum 1)).2 "k").2.aolMsgs =
      [{ action := "set", key := "k", value := .vNum 1 }] := rfl
  rw [he] at hmsg
  simp only [List.mem_singleton] at hmsg
  subst hmsg
  decide

/-- Witness for `c2_remove_effects`: both branches exercised on concrete
states. -/
theorem c2_witness :
    (exist (Core.init 1) "k" = false ∧ remove id (Core.init 1) "k" = (false, Core.init 1)) ∧
    (exist (set id (Core.init 1) "k" (.vNum 1)).2 "k" = true ∧
      (remove id (set id (Core.init 1) "k" (.vNum 1)).2 "k").1 = true) := by
  constructor
  · exact ⟨rfl, (c2_remove_effects id (Core.init 1) "k").1 rfl⟩
  · refine ⟨rfl, ?_⟩
    obtain ⟨m, -, h1, -⟩ := (c2_remove_effects id (set id (Core.init 1) "k" (.vNum 1)).2 "k").2 rfl
    exact h1

/-- C3 (amended): `set` enforces no per-entry or memory cap at all — it
returns 0 exactly when the sanitized key is empty (in which case the state is
unchanged), and otherwise returns 1 or 2 regardless of the encoded size of
the value; the configured limits are never consulted. -/
theorem c3_set_no_cap_enforcement (hashHex : String → String) (c : Core)
    (k : String) (v : JsValue) :
    ((set hashHex c k v).1 = 0 ↔ (sanitizeKey k).length = 0) ∧
    ((sanitizeKey k).length = 0 → set hashHex c k v = (0, c)) ∧
    ((sanitizeKey k).length ≠ 0 →
      (set hashHex c k v).1 = 1 ∨ (set hashHex c k v).1 = 2) := by
  by_cases hlen : (sanitizeKey k).length = 0
  · refine ⟨?_, ?_, ?_⟩
    · unfold set
      rw [if_neg (by simpa using hlen)]
      simp [hlen]
    · intro hx
      unfold set
      rw [if_neg (by simpa using hlen)]
    · intro hx
      exact absurd hlen hx
  · have h12 : (set hashHex c k v).1 = 1 ∨ (set hashHex c k v).1 = 2 := by
      unfold set
      rw [if_pos (by simpa using hlen)]
      unfold setUnsafe
      rw [if_neg hlen]
      by_cases hex : exist { c with aolMsgs := c.aolMsgs ++
          [{ action := "set", key := sanitizeKey k, value := v }] } (sanitizeKey k) = true
      · rw [if_pos hex]
        exact Or.inl rfl
      · rw [if_neg hex]
        exact Or.inr rfl
    refine ⟨?_, fun hx => absurd hx hlen, fun _ => h12⟩
    constructor
    · intro h0
      rcases h12 with h1 | h2
      · rw [h0] at h1
        simp at h1
      · rw [h0] at h2
        simp at h2
    · intro hx
      exact absurd hx hlen

/-- C3 counterexample: with a configured per-entry limit of 1 byte (a positive
limit), the value `"hello"` has MessagePack-encoded size 6 > 1, yet `set`
still returns 2 (inserted) and the key becomes live — no cap is enforced and
state does change. -/
theorem c3_counterexample :
    (0 : Nat) < 1 ∧ 1 < msgpackLen (.vStr "hello") ∧
    (set id (Core.init 1) "k" (.vStr "hello")).1 = 2 ∧
    exist (set id (Core.init 1) "k" (.vStr "hello")).2 "k" = true := by
  refine ⟨Nat.zero_lt_one, ?_, rfl, rfl⟩
  show 1 < msgpackLen (.vStr "hello")
  decide

/-- Witness for `c3_set_no_cap_enforcement`: both the empty-key branch and
the oversized-value branch at concrete inputs. -/
theorem c3_witness :
    (sanitizeKey "!!!").length = 0 ∧
    set id (Core.init 1) "!!!" (.vNum 3) = (0, Core.init 1) ∧
    (sanitizeKey "k").length ≠ 0 ∧
    ((set id (Core.init 1) "k" (.vStr "hello")).1 = 1 ∨
      (set id (Core.init 1) "k" (.vStr "hello")).1 = 2) := by
  refine ⟨rfl, ?_, ?_, ?_⟩
  · exact (c3_set_no_cap_enforcement id (Core.init 1) "!!!" (.vNum 3)).2.1 rfl
  · decide
  · exact (c3_set_no_cap_enforcement id (Core.init 1) "k" (.vStr "hello")).2.2 (by decide)

/-! ## The shard selector sequence (claim C8) -/

/-- Run `nextMeid` a number of times, collecting the returned shard indices. -/
def nextMeidRun : Core → Nat → List Nat × Core
  | c, 0 => ([], c)
  | c, Nat.succ k =>
    let p := nextMeid c
    let q := nextMeidRun p.2 k
    (p.1 :: q.1, q.2)

theorem nextMeid_one {c : Core} (h : c.meidsSize ≤ 1) : nextMeid c = (0, c) := by
  unfold nextMeid
  rw [if_pos h]

theorem nextMeidRun_one {c : Core} (h : c.meidsSize ≤ 1) (k : Nat) :
    (nextMeidRun c k).1 = List.replicate k 0 ∧ (nextMeidRun c k).2 = c := by
  induction k with
  | zero => exact ⟨rfl, rfl⟩
  | succ k ih =>
    simp only [nextMeidRun, nextMeid_one h]
    exact ⟨by rw [ih.1, List.replicate_succ], ih.2⟩

theorem nextMeid_step {n : Nat} (hn : 2 ≤ n) {c : Core} (hms : c.meidsSize = n)
    {j : Nat} (hcur : c.currentMeid = ((j % (n + 1) : Nat) : Int) - 1) :
    (nextMeid c).1 = (j + 1) % (n + 1) - 1 ∧
    (nextMeid c).2.currentMeid = (((j + 1) % (n + 1) : Nat) : Int) - 1 ∧
    (nextMeid c).2.meidsSize = n := by
  have hmlt : j % (n + 1) < n + 1 := Nat.mod_lt _ (by omega)
  have hsucc : (j + 1) % (n + 1) = (j % (n + 1) + 1) % (n + 1) := by
    conv_lhs => rw [Nat.add_mod]
    rw [Nat.mod_eq_of_lt (show 1 < n + 1 by omega)]
  have hn1 : ¬(c.meidsSize ≤ 1) := by omega
  by_cases hend : j % (n + 1) = n
  · have h0 : (j + 1) % (n + 1) = 0 := by
      rw [hsucc, hend, Nat.mod_self]
    have hcond : ((c.meidsSize : Int) ≤ c.currentMeid + 1) := by
      rw [hms, hcur]
      omega
    simp only [nextMeid, if_neg hn1, if_pos hcond]
    refine ⟨?_, ?_, hms⟩
    · rw [h0]
      decide
    · rw [h0]
      norm_num
  · have hlt : j % (n + 1) < n := by omega
    have hid : (j + 1) % (n + 1) = j % (n + 1) + 1 := by
      rw [hsucc, Nat.mod_eq_of_lt (by omega)]
    have hcond : ¬((c.meidsSize : Int) ≤ c.currentMeid + 1) := by
      rw [hms, hcur]
      omega
    simp only [nextMeid, if_neg hn1, if_neg hcond]
    refine ⟨?_, ?_, hms⟩
    · rw [hcur, hid]
      omega
    · rw [hcur, hid]
      push_cast
      ring

theorem nextMeidRun_spec {n : Nat} (hn : 2 ≤ n) :
    ∀ (k j : Nat) (c : Core), c.meidsSize = n →
      c.currentMeid = ((j % (n + 1) : Nat) : Int) - 1 →
      (nextMeidRun c k).1 = (List.range k).map (fun i => (j + i + 1) % (n + 1) - 1) := by
  intro k
  induction k with
  | zero => intro j c _ _; rfl
  | succ k ih =>
    intro j c hms hcur
    obtain ⟨hout, hcur2, hms2⟩ := nextMeid_step hn hms hcur
    simp only [nextMeidRun]
    rw [hout, ih (j + 1) (nextMeid c).2 hms2 hcur2]
    rw [List.range_succ_eq_map]
    simp only [List.map_cons, List.map_map]
    congr 1
    apply List.map_congr_left
    intro i hi
    simp only [Function.comp]
    congr 2
    omega

/-- C8 (amended): the shard selector is *not* a plain counter modulo N.  With
N = 1 every call returns 0.  With N ≥ 2 the k-th call (1-based) returns
`k % (N+1) - 1` (truncated subtraction), i.e. the sequence
`0,1,…,N−1,0, 0,1,…,N−1,0, …` of period N+1: after each wrap shard 0 receives
two consecutive inserts, because the wrap resets `#current_meid` to −1 and
`Math.max(−1,0)` already yields 0.  The first N calls still return
`0,…,N−1` in order, so after N inserts of distinct keys into a fresh N-shard
store each shard holds exactly one. -/
theorem c8_nextMeid_sequence (n k : Nat) (hn : 1 ≤ n) :
    (nextMeidRun (Core.init n) k).1 =
      (List.range k).map (fun i => if n = 1 then 0 else (i + 1) % (n + 1) - 1) ∧
    (nextMeidRun (Core.init n) n).1 = List.range n := by
  by_cases h1 : n = 1
  · subst h1
    constructor
    · rw [(nextMeidRun_one (by exact le_refl 1) k).1]
      simp
    · rw [(nextMeidRun_one (by exact le_refl 1) 1).1]
      rfl
  · have hn2 : 2 ≤ n := by omega
    have hinit : (Core.init n).currentMeid = ((0 % (n + 1) : Nat) : Int) - 1 := by
      simp [Core.init]
    have hspec := nextMeidRun_spec hn2 k 0 (Core.init n) rfl hinit
    constructor
    · rw [hspec]
      apply List.map_congr_left
      intro i _
      simp [h1]
    · rw [nextMeidRun_spec hn2 n 0 (Core.init n) rfl hinit]
      have : ∀ i ∈ List.range n, (0 + i + 1) % (n + 1) - 1 = i := by
        intro i hi
        rw [List.mem_range] at hi
        rw [Nat.zero_add, Nat.mod_eq_of_lt (by omega)]
        omega
      rw [List.map_congr_left this, List.map_id']

/-- C8 counterexample: with N = 2 the first four calls return `[0,1,0,0]`,
not `[(k−1) mod 2]₄ = [0,1,0,1]` as the claim states — call 4 returns 0,
not 1. -/
theorem c8_counterexample :
    (nextMeidRun (Core.init 2) 4).1 = [0, 1, 0, 0] ∧
    [0, 1, 0, 0] ≠ (List.range 4).map (fun k => k % 2) := by
  constructor
  · rfl
  · decide

/-- Witness for `c8_nextMeid_sequence` at N = 3, six calls. -/
theorem c8_witness :
    1 ≤ 3 ∧
    (nextMeidRun (Core.init 3) 6).1 =
      (List.range 6).map (fun i => if 3 = 1 then 0 else (i + 1) % 4 - 1) ∧
    (nextMeidRun (Core.init 3) 3).1 = List.range 3 := by
  have h := c8_nextMeid_sequence 3 6 (by omega)
  exact ⟨by omega, h.1, h.2⟩

/-! ## The ECMAScript JSON built-ins

`SnowflakeAol.stringify`/`parse` delegate non-primitive values to
`JSON.stringify`/`JSON.parse`.  Those built-ins are not repository code; they
are modelled here from the ECMA-262 specification on the value domain of
`JsValue`, with two documented restrictions of the embedding: numbers are
integers (so number grammars are integer-only), and `\uXXXX` escapes decode
to single code points (no surrogate-pair combination). -/

def isJsonWs (c : Char) : Bool :=
  decide (c.toNat = 32) || decide (c.toNat = 9) ||
  decide (c.toNat = 10) || decide (c.toNat = 13)

def skipWs (cs : List Char) : List Char := cs.dropWhile isJsonWs

def isDigitChar (c : Char) : Bool := decide (48 ≤ c.toNat ∧ c.toNat ≤ 57)

def digitVal (c : Char) : Nat := c.toNat - 48

def digitsToNat (ds : List Char) : Nat := ds.foldl (fun a c => a * 10 + digitVal c) 0

def digitChar (d : Nat) : Char := Char.ofNat (48 + d)

/-- Decimal digits of a natural number, most significant first. -/
def natToDigits (n : Nat) : List Char :=
  if _h : n < 10 then [digitChar n]
  else natToDigits (n / 10) ++ [digitChar (n % 10)]
decreasing_by exact Nat.div_lt_self (by omega) (by omega)

/-- `Number.prototype.toString` for integers. -/
def intEnc (n : Int) : List Char :=
  if n < 0 then '-' :: natToDigits (-n).toNat else natToDigits n.toNat

def isHexDigitChar (c : Char) : Bool :=
  isDigitChar c || decide (97 ≤ c.toNat ∧ c.toNat ≤ 102) ||
  decide (65 ≤ c.toNat ∧ c.toNat ≤ 70)

def hexVal (c : Char) : Nat :=
  if isDigitChar c then c.toNat - 48
  else if decide (97 ≤ c.toNat ∧ c.toNat ≤ 102) then c.toNat - 87
  else if decide (65 ≤ c.toNat ∧ c.toNat ≤ 70) then c.toNat - 55
  else 0

def hexDigitChar (d : Nat) : Char :=
  if d < 10 then Char.ofNat (48 + d) else Char.ofNat (87 + d)

/-- The escaping performed by `JSON.stringify` on one string character
(ECMA-262 QuoteJSONString). -/
def escChar (c : Char) : List Char :=
  if c = '"' then ['\\', '"']
  else if c = '\\' then ['\\', '\\']
  else if c.toNat = 8 then ['\\', 'b']
  else if c.toNat = 9 then ['\\', 't']
  else if c.toNat = 10 then ['\\', 'n']
  else if c.toNat = 12 then ['\\', 'f']
  else if c.toNat = 13 then ['\\', 'r']
  else if c.toNat < 32 then
    ['\\', 'u', '0', '0', hexDigitChar (c.toNat / 16), hexDigitChar (c.toNat % 16)]
  else [c]

def strEncBody : List Char → List Char
  | [] => []
  | c :: t => escChar c ++ strEncBody t

/-- A JSON string literal for the character list `cs`. -/
def strEnc (cs : List Char) : List Char := '"' :: (strEncBody cs ++ ['"'])

/-- Decimal rendering of a comma-separated list of naturals (the `data`
field of `Buffer.prototype.toJSON`). -/
def natEncList : List Nat → List Char
  | [] => []
  | [n] => natToDigits n
  | n :: t => natToDigits n ++ ',' :: natEncList t

/-- `JSON.stringify` of a Node `Buffer`: `JSON.stringify` consults
`Buffer.prototype.toJSON`, which yields the object
`\x7b type: "Buffer", data: [..bytes..] \x7d`. -/
def bufEnc (bs : List Nat) : List Char :=
  ('{' :: "\"type\":\"Buffer\",\"data\":[".data) ++ natEncList bs ++ [']', '}']

mutual

/-- `JSON.stringify` (ECMA-262 SerializeJSONProperty) on the `JsValue`
domain, producing characters. -/
def jsonEnc : JsValue → List Char
  | .vNull => ['n', 'u', 'l', 'l']
  | .vBool true => ['t', 'r', 'u', 'e']
  | .vBool false => ['f', 'a', 'l', 's', 'e']
  | .vNum n => intEnc n
  | .vStr s => strEnc s.data
  | .vBytes bs => bufEnc bs
  | .vArr [] => ['[', ']']
  | .vArr (x :: t) => '[' :: (encElems x t ++ [']'])
  | .vMap [] => ['{', '}']
  | .vMap (kv :: t) => '{' :: (encMembers kv t ++ ['}'])
termination_by v => sizeOf v
decreasing_by all_goals (simp_wf; try omega)

def encElems : JsValue → List JsValue → List Char
  | v, [] => jsonEnc v
  | v, w :: t => jsonEnc v ++ ',' :: encElems w t
termination_by v t => 1 + sizeOf v + sizeOf t
decreasing_by all_goals (simp_wf; try omega)

def encMembers : String × JsValue → List (String × JsValue) → List Char
  | (k, v), [] => strEnc k.data ++ ':' :: jsonEnc v
  | (k, v), kv :: t => strEnc k.data ++ ':' :: jsonEnc v ++ ',' :: encMembers kv t
termination_by kv t => 1 + sizeOf kv + sizeOf t
decreasing_by all_goals (simp_wf; try omega)

end

/-- JSON string body consumer: called after the opening quote, returns the
decoded characters and the input following the closing quote. -/
def pStrContent : Nat → List Char → Option (List Char × List Char)
  | 0, _ => none
  | _ + 1, [] => none
  | fuel + 1, c :: rest =>
    if c = '"' then some ([], rest)
    else if c = '\\' then
      match rest with
      | [] => none
      | e :: rest2 =>
        if e = '"' || e = '\\' || e = '/' then
          (pStrContent fuel rest2).map fun p => (e :: p.1, p.2)
        else if e = 'b' then
          (pStrContent fuel rest2).map fun p => (Char.ofNat 8 :: p.1, p.2)
        else if e = 't' then
          (pStrContent fuel rest2).map fun p => (Char.ofNat 9 :: p.1, p.2)
        else if e = 'n' then
          (pStrContent fuel rest2).map fun p => (Char.ofNat 10 :: p.1, p.2)
        else if e = 'f' then
          (pStrContent fuel rest2).map fun p => (Char.ofNat 12 :: p.1, p.2)
        else if e = 'r' then
          (pStrContent fuel rest2).map fun p => (Char.ofNat 13 :: p.1, p.2)
        else if e = 'u' then
          match rest2 with
          | h1 :: h2 :: h3 :: h4 :: rest3 =>
            if isHexDigitChar h1 && isHexDigitChar h2 && isHexDigitChar h3 &&
                isHexDigitChar h4 then
              (pStrContent fuel rest3).map fun p =>
                (Char.ofNat (hexVal h1 * 4096 + hexVal h2 * 256 + hexVal h3 * 16 + hexVal h4)
                  :: p.1, p.2)
            else none
          | _ => none
        else none
    else (pStrContent fuel rest).map fun p => (c :: p.1, p.2)

/-- Integer number token: digits with no following fraction or exponent
(the embedding models JS numbers as integers). -/
def pNatNum (cs : List Char) : Option (Nat × List Char) :=
  let ds := cs.takeWhile isDigitChar
  if ds.isEmpty then none
  else
    match cs.dropWhile isDigitChar with
    | [] => some (digitsToNat ds, [])
    | c :: r =>
      if c = '.' || c = 'e' || c = 'E' then none
      else some (digitsToNat ds, c :: r)

def pNum (cs : List Char) : Option (Int × List Char) :=
  if cs.head? = some '-' then (pNatNum cs.tail).map fun p => (-(p.1 : Int), p.2)
  else (pNatNum cs).map fun p => ((p.1 : Int), p.2)

mutual

/-- `JSON.parse` value parser (recursive descent over the JSON grammar,
driven by a fuel counter). -/
def pVal : Nat → List Char → Option (JsValue × List Char)
  | 0, _ => none
  | fuel + 1, cs =>
    match skipWs cs with
    | [] => none
    | c :: rest =>
      if c = 'n' then
        match rest with
        | 'u' :: 'l' :: 'l' :: r => some (.vNull, r)
        | _ => none
      else if c = 't' then
        match rest with
        | 'r' :: 'u' :: 'e' :: r => some (.vBool true, r)
        | _ => none
      else if c = 'f' then
        match rest with
        | 'a' :: 'l' :: 's' :: 'e' :: r => some (.vBool false, r)
        | _ => none
      else if c = '"' then
        (pStrContent (rest.length + 1) rest).map fun p => (.vStr ⟨p.1⟩, p.2)
      else if c = '[' then
        match skipWs rest with
        | [] => none
        | c2 :: r2 =>
          if c2 = ']' then some (.vArr [], r2)
          else (pElems fuel (c2 :: r2)).map fun p => (.vArr p.1, p.2)
      else if c = '{' then
        match skipWs rest with
        | [] => none
        | c2 :: r2 =>
          if c2 = '}' then some (.vMap [], r2)
          else (pMembers fuel (c2 :: r2)).map fun p => (.vMap p.1, p.2)
      else if c = '-' || isDigitChar c then
        (pNum (c :: rest)).map fun p => (.vNum p.1, p.2)
      else none

def pElems : Nat → List Char → Option (List JsValue × List Char)
  | 0, _ => none
  | fuel + 1, cs =>
    match pVal fuel cs with
    | none => none
    | some (v, rest) =>
      match skipWs rest with
      | ',' :: r2 => (pElems fuel r2).map fun p => (v :: p.1, p.2)
      | ']' :: r2 => some ([v], r2)
      | _ => none

def pMembers : Nat → List Char → Option (List (String × JsValue) × List Char)
  | 0, _ => none
  | fuel + 1, cs =>
    match skipWs cs with
    | '"' :: rest =>
      match pStrContent (rest.length + 1) rest with
      | none => none
      | some (kChars, r1) =>
        match skipWs r1 with
        | ':' :: r2 =>
          match pVal fuel r2 with
          | none => none
          | some (v, r3) =>
            match skipWs r3 with
            | ',' :: r4 => (pMembers fuel r4).map fun p => ((⟨kChars⟩, v) :: p.1, p.2)
            | '}' :: r4 => some ([(⟨kChars⟩, v)], r4)
            | _ => none
        | _ => none
    | _ => none

end

/-- `JSON.stringify` on strings. -/
def jsonStringify (v : JsValue) : String := ⟨jsonEnc v⟩

/-- `JSON.parse`: parse one value and require only whitespace to follow. -/
def jsonParse (s : String) : Option JsValue :=
  match pVal (s.data.length + 1) s.data with
  | some (v, rest) => if skipWs rest = [] then some v else none
  | none => none

/-- `Number(s)` for a trimmed integer literal (model of the coercion used by
`isNaN`); returns `none` when the string does not coerce to a (model)
number.  `Number("")` and whitespace-only strings coerce to 0. -/
def jsNumber (s : String) : Option Int :=
  let t := ((s.data.dropWhile isJsWhitespace).reverse.dropWhile isJsWhitespace).reverse
  match t with
  | [] => some 0
  | '-' :: ds => if !ds.isEmpty && ds.all isDigitChar then some (-(digitsToNat ds : Int)) else none
  | '+' :: ds => if !ds.isEmpty && ds.all isDigitChar then some ((digitsToNat ds : Int)) else none
  | ds => if ds.all isDigitChar then some ((digitsToNat ds : Int)) else none

namespace SnowflakeAol

/-- `SnowflakeAol.stringify` (SnowflakeAol.js:39-49): arrays, strings and
non-null objects (including Buffers) go to `JSON.stringify`; `null → "N"`,
`true → "T"`, `false → "F"`; numbers use `toString()`. -/
def stringify : JsValue → String
  | .vArr xs => jsonStringify (.vArr xs)
  | .vStr s => jsonStringify (.vStr s)
  | .vMap kvs => jsonStringify (.vMap kvs)
  | .vBytes bs => jsonStringify (.vBytes bs)
  | .vNull => "N"
  | .vBool true => "T"
  | .vBool false => "F"
  | .vNum n => ⟨intEnc n⟩

/-- `SnowflakeAol.parse` (SnowflakeAol.js:62-82): literal `N/n`, `T/t`,
`F/f`; otherwise try `JSON.parse`; if that throws, numeric strings coerce
via `Number`, anything else is returned as the string itself. -/
def parse (input : String) : JsValue :=
  if input = "N" || input = "n" then .vNull
  else if input = "T" || input = "t" then .vBool true
  else if input = "F" || input = "f" then .vBool false
  else
    match jsonParse input with
    | some v => v
    | none =>
      match jsNumber input with
      | some num => .vNum num
      | none => .vStr input

end SnowflakeAol

/-! ### Round trip of the number and string tokens -/

theorem char_toNat_ofNat {n : Nat} (h : Nat.isValidChar n) : (Char.ofNat n).toNat = n := by
  unfold Char.ofNat
  rw [dif_pos h]
  rfl

theorem isValidChar_of_lt {n : Nat} (h : n < 55296) : Nat.isValidChar n := Or.inl h

theorem digitChar_toNat {d : Nat} (h : d < 10) : (digitChar d).toNat = 48 + d :=
  char_toNat_ofNat (isValidChar_of_lt (by omega))

theorem isDigitChar_digitChar {d : Nat} (h : d < 10) : isDigitChar (digitChar d) = true := by
  simp only [isDigitChar, digitChar_toNat h, decide_eq_true_eq]
  omega

theorem digitVal_digitChar {d : Nat} (h : d < 10) : digitVal (digitChar d) = d := by
  simp [digitVal, digitChar_toNat h]

theorem natToDigits_all_digits (n : Nat) : ∀ c ∈ natToDigits n, isDigitChar c = true := by
  induction n using Nat.strong_induction_on with
  | _ n ih =>
    unfold natToDigits
    by_cases h : n < 10
    · rw [dif_pos h]
      intro c hc
      simp only [List.mem_singleton] at hc
      subst hc
      exact isDigitChar_digitChar h
    · rw [dif_neg h]
      intro c hc
      rcases List.mem_append.mp hc with h1 | h2
      · exact ih (n / 10) (Nat.div_lt_self (by omega) (by omega)) c h1
      · simp only [List.mem_singleton] at h2
        subst h2
        exact isDigitChar_digitChar (Nat.mod_lt _ (by omega))

theorem natToDigits_ne_nil (n : Nat) : natToDigits n ≠ [] := by
  unfold natToDigits
  by_cases h : n < 10
  · rw [dif_pos h]
    simp
  · rw [dif_neg h]
    simp

theorem digitsToNat_append_one (ds : List Char) (c : Char) :
    digitsToNat (ds ++ [c]) = digitsToNat ds * 10 + digitVal c := by
  simp [digitsToNat, List.foldl_append]

theorem digitsToNat_natToDigits (n : Nat) : digitsToNat (natToDigits n) = n := by
  induction n using Nat.strong_induction_on with
  | _ n ih =>
    unfold natToDigits
    by_cases h : n < 10
    · rw [dif_pos h]
      simp [digitsToNat, digitVal_digitChar h]
    · rw [dif_neg h]
      rw [digitsToNat_append_one, ih (n / 10) (Nat.div_lt_self (by omega) (by omega)),
          digitVal_digitChar (Nat.mod_lt _ (by omega))]
      omega

theorem takeWhile_append_all {p : Char → Bool} {ds : List Char} (rest : List Char)
    (h : ∀ c ∈ ds, p c = true) :
    (ds ++ rest).takeWhile p = ds ++ rest.takeWhile p := by
  induction ds with
  | nil => rfl
  | cons a t ih =>
    simp only [List.cons_append, List.takeWhile_cons, h a (List.mem_cons_self a t), if_true]
    rw [ih fun c hc => h c (List.mem_cons_of_mem _ hc)]

theorem dropWhile_append_all {p : Char → Bool} {ds : List Char} (rest : List Char)
    (h : ∀ c ∈ ds, p c = true) :
    (ds ++ rest).dropWhile p = rest.dropWhile p := by
  induction ds with
  | nil => rfl
  | cons a t ih =>
    simp only [List.cons_append, List.dropWhile_cons, h a (List.mem_cons_self a t)]
    exact ih fun c hc => h c (List.mem_cons_of_mem _ hc)

/-- The character after a complete numeric token must not extend it:
not a digit and not a fraction/exponent starter. -/
def nonDigitHead (cs : List Char) : Prop :=
  ∀ c, cs.head? = some c → isDigitChar c = false ∧ c ≠ '.' ∧ c ≠ 'e' ∧ c ≠ 'E'

theorem pNatNum_enc (m : Nat) {rest : List Char} (hrest : nonDigitHead rest) :
    pNatNum (natToDigits m ++ rest) = some (m, rest) := by
  unfold pNatNum
  rw [takeWhile_append_all rest (natToDigits_all_digits m),
      dropWhile_append_all rest (natToDigits_all_digits m)]
  rcases rest with _ | ⟨c, r⟩
  · simp only [List.takeWhile_nil, List.dropWhile_nil, List.append_nil]
    rw [if_neg (by simp [natToDigits_ne_nil m])]
    rw [digitsToNat_natToDigits]
  · obtain ⟨hd, hdot, he, hE⟩ := hrest c rfl
    simp only [List.takeWhile_cons, hd, List.dropWhile_cons]
    rw [if_neg (by simp [natToDigits_ne_nil m])]
    simp only [Bool.false_eq_true, if_neg, not_false_iff]
    rw [if_neg (by simp [hdot, he, hE])]
    rw [List.append_nil, digitsToNat_natToDigits]

theorem digit_ne_minus {c : Char} (h : isDigitChar c = true) : c ≠ '-' := by
  intro he
  subst he
  simp [isDigitChar] at h

theorem pNum_intEnc (n : Int) {rest : List Char} (hrest : nonDigitHead rest) :
    pNum (intEnc n ++ rest) = some (n, rest) := by
  unfold intEnc
  by_cases hn : n < 0
  · rw [if_pos hn]
    show pNum ('-' :: (natToDigits (-n).toNat ++ rest)) = _
    unfold pNum
    rw [if_pos (by rfl), List.tail_cons, pNatNum_enc _ hrest]
    simp only [Option.map_some']
    congr 1
    congr 1
    rw [Int.toNat_of_nonneg (by omega)]
    omega
  · rw [if_neg hn]
    rcases hnd : natToDigits n.toNat with _ | ⟨c, t⟩
    · exact absurd hnd (natToDigits_ne_nil _)
    · have hdig : isDigitChar c = true :=
        natToDigits_all_digits n.toNat c (by rw [hnd]; exact List.mem_cons_self ..)
      show pNum (c :: (t ++ rest)) = _
      unfold pNum
      rw [if_neg (by simp only [List.head?_cons, Option.some_inj]; exact digit_ne_minus hdig)]
      rw [show c :: (t ++ rest) = natToDigits n.toNat ++ rest by rw [hnd]; rfl]
      rw [pNatNum_enc _ hrest]
      simp only [Option.map_some']
      congr 1
      congr 1
      omega

theorem hexDigitChar_isHex {d : Nat} (h : d < 16) : isHexDigitChar (hexDigitChar d) = true := by
  unfold hexDigitChar
  by_cases h10 : d < 10
  · rw [if_pos h10]
    simp only [isHexDigitChar, isDigitChar,
      char_toNat_ofNat (n := 48 + d) (isValidChar_of_lt (by omega))]
    simp only [Bool.or_eq_true, decide_eq_true_eq]
    omega
  · rw [if_neg h10]
    simp only [isHexDigitChar, isDigitChar,
      char_toNat_ofNat (n := 87 + d) (isValidChar_of_lt (by omega))]
    simp only [Bool.or_eq_true, decide_eq_true_eq]
    omega

theorem hexVal_hexDigitChar {d : Nat} (h : d < 16) : hexVal (hexDigitChar d) = d := by
  unfold hexDigitChar hexVal
  by_cases h10 : d < 10
  · rw [if_pos h10]
    rw [if_pos (by simp only [isDigitChar,
      char_toNat_ofNat (n := 48 + d) (isValidChar_of_lt (by omega)),
      decide_eq_true_eq]; omega)]
    rw [char_toNat_ofNat (n := 48 + d) (isValidChar_of_lt (by omega))]
    omega
  · rw [if_neg h10]
    rw [if_neg (by simp only [isDigitChar,
      char_toNat_ofNat (n := 87 + d) (isValidChar_of_lt (by omega)),
      decide_eq_true_eq]; omega)]
    rw [if_pos (by simp only [char_toNat_ofNat (n := 87 + d) (isValidChar_of_lt (by omega)),
      decide_eq_true_eq]; omega)]
    rw [char_toNat_ofNat (n := 87 + d) (isValidChar_of_lt (by omega))]
    omega

theorem escChar_length_pos (c : Char) : 0 < (escChar c).length := by
  unfold escChar
  repeat' split
  all_goals simp

theorem strEncBody_length_ge (cs : List Char) : cs.length ≤ (strEncBody cs).length := by
  induction cs with
  | nil => simp [strEncBody]
  | cons c t ih =>
    simp only [strEncBody, List.length_cons, List.length_append]
    have := escChar_length_pos c
    omega

theorem pStr_plain (f : Nat) (c : Char) (rest : List Char)
    (h1 : ¬(c = '"')) (h2 : ¬(c = '\\')) :
    pStrContent (f + 1) (c :: rest) = (pStrContent f rest).map fun p => (c :: p.1, p.2) := by
  simp only [pStrContent]
  rw [if_neg h1, if_neg h2]

theorem pStrContent_enc : ∀ (cs : List Char) (fuel : Nat) (rest : List Char),
    cs.length < fuel →
    pStrContent fuel (strEncBody cs ++ ('"' :: rest)) = some (cs, rest) := by
  intro cs
  induction cs with
  | nil =>
    intro fuel rest hf
    cases fuel with
    | zero => omega
    | succ f =>
      show pStrContent (f + 1) ('"' :: rest) = some ([], rest)
      rfl
  | cons c t ih =>
    intro fuel rest hf
    cases fuel with
    | zero => omega
    | succ f =>
      have hft : t.length < f := by simp at hf; omega
      have iht := ih f rest hft
      by_cases h1 : c = '"'
      · subst h1
        show pStrContent (f + 1) ('\\' :: '"' :: (strEncBody t ++ ('"' :: rest))) = _
        show (pStrContent f (strEncBody t ++ ('"' :: rest))).map
          (fun p => ('"' :: p.1, p.2)) = _
        rw [iht]
        rfl
      by_cases h2 : c = '\\'
      · subst h2
        show pStrContent (f + 1) ('\\' :: '\\' :: (strEncBody t ++ ('"' :: rest))) = _
        show (pStrContent f (strEncBody t ++ ('"' :: rest))).map
          (fun p => ('\\' :: p.1, p.2)) = _
        rw [iht]
        rfl
      by_cases h3 : c.toNat = 8
      · have hesc : escChar c = ['\\', 'b'] := by
          unfold escChar
          rw [if_neg h1, if_neg h2, if_pos h3]
        show pStrContent (f + 1) (escChar c ++ strEncBody t ++ ('"' :: rest)) = _
        rw [hesc]
        show (pStrContent f (strEncBody t ++ ('"' :: rest))).map
          (fun p => (Char.ofNat 8 :: p.1, p.2)) = _
        rw [iht]
        simp only [Option.map_some']
        rw [show Char.ofNat 8 = c by rw [← h3, Char.ofNat_toNat]]
      by_cases h4 : c.toNat = 9
      · have hesc : escChar c = ['\\', 't'] := by
          unfold escChar
          rw [if_neg h1, if_neg h2, if_neg h3, if_pos h4]
        show pStrContent (f + 1) (escChar c ++ strEncBody t ++ ('"' :: rest)) = _
        rw [hesc]
        show (pStrContent f (strEncBody t ++ ('"' :: rest))).map
          (fun p => (Char.ofNat 9 :: p.1, p.2)) = _
        rw [iht]
        simp only [Option.map_some']
        rw [show Char.ofNat 9 = c by rw [← h4, Char.ofNat_toNat]]
      by_cases h5 : c.toNat = 10
      · have hesc : escChar c = ['\\', 'n'] := by
          unfold escChar
          rw [if_neg h1, if_neg h2, if_neg h3, if_neg h4, if_pos h5]
        show pStrContent (f + 1) (escChar c ++ strEncBody t ++ ('"' :: rest)) = _
        rw [hesc]
        show (pStrContent f (strEncBody t ++ ('"' :: rest))).map
          (fun p => (Char.ofNat 10 :: p.1, p.2)) = _
        rw [iht]
        simp only [Option.map_some']
        rw [show Char.ofNat 10 = c by rw [← h5, Char.ofNat_toNat]]
      by_cases h6 : c.toNat = 12
      · have hesc : escChar c = ['\\', 'f'] := by
          unfold escChar
          rw [if_neg h1, if_neg h2, if_neg h3, if_neg h4, if_neg h5, if_pos h6]
        show pStrContent (f + 1) (escChar c ++ strEncBody t ++ ('"' :: rest)) = _
        rw [hesc]
        show (pStrContent f (strEncBody t ++ ('"' :: rest))).map
          (fun p => (Char.ofNat 12 :: p.1, p.2)) = _
        rw [iht]
        simp only [Option.map_some']
        rw [show Char.ofNat 12 = c by rw [← h6, Char.ofNat_toNat]]
      by_cases h7 : c.toNat = 13
      · have hesc : escChar c = ['\\', 'r'] := by
          unfold escChar
          rw [if_neg h1, if_neg h2, if_neg h3, if_neg h4, if_neg h5, if_neg h6, if_pos h7]
        show pStrContent (f + 1) (escChar c ++ strEncBody t ++ ('"' :: rest)) = _
        rw [hesc]
        show (pStrContent f (strEncBody t ++ ('"' :: rest))).map
          (fun p => (Char.ofNat 13 :: p.1, p.2)) = _
        rw [iht]
        simp only [Option.map_some']
        rw [show Char.ofNat 13 = c by rw [← h7, Char.ofNat_toNat]]
      by_cases h8 : c.toNat < 32
      · have hesc : escChar c =
            ['\\', 'u', '0', '0', hexDigitChar (c.toNat / 16), hexDigitChar (c.toNat % 16)] := by
          unfold escChar
          rw [if_neg h1, if_neg h2, if_neg h3, if_neg h4, if_neg h5, if_neg h6, if_neg h7,
            if_pos h8]
        show pStrContent (f + 1) (escChar c ++ strEncBody t ++ ('"' :: rest)) = _
        rw [hesc]
        show (if isHexDigitChar '0' && isHexDigitChar '0' &&
              isHexDigitChar (hexDigitChar (c.toNat / 16)) &&
              isHexDigitChar (hexDigitChar (c.toNat % 16)) then
            (pStrContent f (strEncBody t ++ ('"' :: rest))).map fun p =>
              (Char.ofNat (hexVal '0' * 4096 + hexVal '0' * 256 +
                hexVal (hexDigitChar (c.toNat / 16)) * 16 +
                hexVal (hexDigitChar (c.toNat % 16))) :: p.1, p.2)
          else none) = _
        rw [if_pos (by
          rw [hexDigitChar_isHex (by omega), hexDigitChar_isHex (Nat.mod_lt _ (by omega))]
          rfl)]
        rw [iht]
        simp only [Option.map_some']
        rw [hexVal_hexDigitChar (by omega), hexVal_hexDigitChar (Nat.mod_lt _ (by omega))]
        rw [show hexVal '0' * 4096 + hexVal '0' * 256 + c.toNat / 16 * 16 + c.toNat % 16
            = c.toNat by
          show 0 * 4096 + 0 * 256 + c.toNat / 16 * 16 + c.toNat % 16 = c.toNat
          omega]
        rw [Char.ofNat_toNat]
      · have hesc : escChar c = [c] := by
          unfold escChar
          rw [if_neg h1, if_neg h2, if_neg h3, if_neg h4, if_neg h5, if_neg h6, if_neg h7,
            if_neg h8]
        show pStrContent (f + 1) (escChar c ++ strEncBody t ++ ('"' :: rest)) = _
        rw [hesc]
        show pStrContent (f + 1) (c :: (strEncBody t ++ ('"' :: rest))) = _
        rw [pStr_plain f c _ h1 h2, iht]
        rfl

/-! ### Round trip of whole JSON values -/

mutual

/-- Values realizable as JavaScript data without Buffers: the domain on which
`JSON.parse ∘ JSON.stringify` is the identity.  JS objects cannot carry
duplicate keys, hence the `Nodup` condition on mappings. -/
def wfJson : JsValue → Bool
  | .vNull => true
  | .vBool _ => true
  | .vNum _ => true
  | .vStr _ => true
  | .vBytes _ => false
  | .vArr xs => wfJsonList xs
  | .vMap kvs => decide ((kvs.map Prod.fst).Nodup) && wfJsonMap kvs
termination_by v => sizeOf v
decreasing_by all_goals (simp_wf; try omega)

def wfJsonList : List JsValue → Bool
  | [] => true
  | v :: t => wfJson v && wfJsonList t
termination_by l => sizeOf l
decreasing_by all_goals (simp_wf; try omega)

def wfJsonMap : List (String × JsValue) → Bool
  | [] => true
  | (_, v) :: t => wfJson v && wfJsonMap t
termination_by l => sizeOf l
decreasing_by all_goals (simp_wf; try omega)

end

theorem char_ne_of_toNat_ne {a b : Char} (h : a.toNat ≠ b.toNat) : a ≠ b :=
  fun he => h (he ▸ rfl)

theorem skipWs_cons_not_ws {c : Char} {cs : List Char} (h : isJsonWs c = false) :
    skipWs (c :: cs) = c :: cs := by
  simp [skipWs, List.dropWhile_cons, h]

theorem digit_facts {c : Char} (h : isDigitChar c = true) :
    isJsonWs c = false ∧ c ≠ 'n' ∧ c ≠ 't' ∧ c ≠ 'f' ∧ c ≠ '"' ∧ c ≠ '[' ∧ c ≠ '{' ∧
    c ≠ ']' ∧ c ≠ '}' ∧ c ≠ ',' := by
  simp only [isDigitChar, decide_eq_true_eq] at h
  have h110 : ('n').toNat = 110 := rfl
  have h116 : ('t').toNat = 116 := rfl
  have h102 : ('f').toNat = 102 := rfl
  have h34 : ('"').toNat = 34 := rfl
  have h91 : ('[').toNat = 91 := rfl
  have h123 : ('{').toNat = 123 := rfl
  have h93 : (']').toNat = 93 := rfl
  have h125 : ('}').toNat = 125 := rfl
  have h44 : (',').toNat = 44 := rfl
  refine ⟨?_, ?_, ?_, ?_, ?_, ?_, ?_, ?_, ?_, ?_⟩
  · simp only [isJsonWs, Bool.or_eq_false_iff, decide_eq_false_iff_not]
    omega
  all_goals exact char_ne_of_toNat_ne (by omega)

theorem minus_facts :
    isJsonWs '-' = false ∧ ('-' : Char) ≠ 'n' := by
  constructor <;> decide

/-- Every serialized JSON value starts with a character that is not
whitespace and not one of the container terminators. -/
theorem jsonEnc_head (v : JsValue) :
    ∃ c t, jsonEnc v = c :: t ∧ isJsonWs c = false ∧ c ≠ ']' ∧ c ≠ '}' ∧ c ≠ ',' := by
  cases v with
  | vNull =>
    exact ⟨'n', ['u', 'l', 'l'], by simp [jsonEnc], by decide, by decide, by decide, by decide⟩
  | vBool b =>
    cases b with
    | true =>
      exact ⟨'t', ['r', 'u', 'e'], by simp [jsonEnc], by decide, by decide, by decide, by decide⟩
    | false =>
      exact ⟨'f', ['a', 'l', 's', 'e'], by simp [jsonEnc],
        by decide, by decide, by decide, by decide⟩
  | vNum n =>
    have henc : jsonEnc (.vNum n) = intEnc n := by simp [jsonEnc]
    rw [henc]
    unfold intEnc
    by_cases hn : n < 0
    · rw [if_pos hn]
      exact ⟨'-', _, rfl, by decide, by decide, by decide, by decide⟩
    · rw [if_neg hn]
      rcases hnd : natToDigits n.toNat with _ | ⟨c, t⟩
      · exact absurd hnd (natToDigits_ne_nil _)
      · have hdig : isDigitChar c = true :=
          natToDigits_all_digits n.toNat c (by rw [hnd]; exact List.mem_cons_self ..)
        obtain ⟨hws, -, -, -, -, -, -, hrb, hrb2, hcm⟩ := digit_facts hdig
        exact ⟨c, t, rfl, hws, hrb, hrb2, hcm⟩
  | vStr s =>
    exact ⟨'"', strEncBody s.data ++ ['"'], by simp [jsonEnc, strEnc],
      by decide, by decide, by decide, by decide⟩
  | vBytes bs =>
    exact ⟨'{', "\"type\":\"Buffer\",\"data\":[".data ++ (natEncList bs ++ [']', '}']),
      by simp [jsonEnc, bufEnc], by decide, by decide, by decide, by decide⟩
  | vArr xs =>
    cases xs with
    | nil => exact ⟨'[', [']'], by simp [jsonEnc], by decide, by decide, by decide, by decide⟩
    | cons x t =>
      exact ⟨'[', encElems x t ++ [']'], by simp [jsonEnc],
        by decide, by decide, by decide, by decide⟩
  | vMap kvs =>
    cases kvs with
    | nil => exact ⟨'{', ['}'], by simp [jsonEnc], by decide, by decide, by decide, by decide⟩
    | cons kv t =>
      exact ⟨'{', encMembers kv t ++ ['}'], by simp [jsonEnc],
        by decide, by decide, by decide, by decide⟩

theorem jsonEnc_length_pos (v : JsValue) : 0 < (jsonEnc v).length := by
  obtain ⟨c, t, he, -⟩ := jsonEnc_head v
  rw [he]
  simp

theorem ndh_cons {c : Char} {r : List Char} (h1 : isDigitChar c = false)
    (h2 : c ≠ '.') (h3 : c ≠ 'e') (h4 : c ≠ 'E') : nonDigitHead (c :: r) := by
  intro c2 hc2
  simp only [List.head?_cons, Option.some_inj] at hc2
  subst hc2
  exact ⟨h1, h2, h3, h4⟩

theorem ndh_comma (r : List Char) : nonDigitHead (',' :: r) :=
  ndh_cons (by decide) (by decide) (by decide) (by decide)

theorem ndh_rbracket (r : List Char) : nonDigitHead (']' :: r) :=
  ndh_cons (by decide) (by decide) (by decide) (by decide)

theorem ndh_rbrace (r : List Char) : nonDigitHead ('}' :: r) :=
  ndh_cons (by decide) (by decide) (by decide) (by decide)

/-- `encElems` always begins with the first element's encoding. -/
theorem encElems_split (x : JsValue) (t : List JsValue) :
    ∃ s, encElems x t = jsonEnc x ++ s := by
  cases t with
  | nil => exact ⟨[], by simp [encElems]⟩
  | cons y t2 => exact ⟨',' :: encElems y t2, by simp [encElems]⟩

/-- `encMembers` always begins with a quote. -/
theorem encMembers_split (kv : String × JsValue) (t : List (String × JsValue)) :
    ∃ s, encMembers kv t = '"' :: s := by
  rcases kv with ⟨k, v⟩
  cases t with
  | nil =>
    exact ⟨strEncBody k.data ++ ('"' :: (':' :: jsonEnc v)), by simp [encMembers, strEnc]⟩
  | cons kv2 t2 =>
    exact ⟨strEncBody k.data ++
      ('"' :: (':' :: (jsonEnc v ++ (',' :: encMembers kv2 t2)))),
      by simp [encMembers, strEnc]⟩

theorem pVal_step (f : Nat) (c : Char) (t : List Char) (hws : isJsonWs c = false) :
    pVal (f + 1) (c :: t) =
      (if c = 'n' then
        match t with
        | 'u' :: 'l' :: 'l' :: r => some (JsValue.vNull, r)
        | _ => none
      else if c = 't' then
        match t with
        | 'r' :: 'u' :: 'e' :: r => some (JsValue.vBool true, r)
        | _ => none
      else if c = 'f' then
        match t with
        | 'a' :: 'l' :: 's' :: 'e' :: r => some (JsValue.vBool false, r)
        | _ => none
      else if c = '"' then
        (pStrContent (t.length + 1) t).map fun p => (JsValue.vStr ⟨p.1⟩, p.2)
      else if c = '[' then
        match skipWs t with
        | [] => none
        | c2 :: r2 =>
          if c2 = ']' then some (JsValue.vArr [], r2)
          else (pElems f (c2 :: r2)).map fun p => (JsValue.vArr p.1, p.2)
      else if c = '{' then
        match skipWs t with
        | [] => none
        | c2 :: r2 =>
          if c2 = '}' then some (JsValue.vMap [], r2)
          else (pMembers f (c2 :: r2)).map fun p => (JsValue.vMap p.1, p.2)
      else if c = '-' || isDigitChar c then
        (pNum (c :: t)).map fun p => (JsValue.vNum p.1, p.2)
      else none) := by
  conv_lhs => rw [pVal]
  rw [skipWs_cons_not_ws hws]

theorem pVal_digit_head (f : Nat) (c : Char) (t : List Char) (h : isDigitChar c = true) :
    pVal (f + 1) (c :: t) = (pNum (c :: t)).map fun p => (JsValue.vNum p.1, p.2) := by
  obtain ⟨hws, hn, ht2, hf2, hq, hlb, hlc, -, -, -⟩ := digit_facts h
  rw [pVal_step f c t hws, if_neg hn, if_neg ht2, if_neg hf2, if_neg hq, if_neg hlb,
    if_neg hlc, if_pos (by rw [h]; simp)]

theorem pVal_lbracket_cons (f : Nat) (c2 : Char) (t2 : List Char)
    (hws2 : isJsonWs c2 = false) (hne : ¬(c2 = ']')) :
    pVal (f + 1) ('[' :: (c2 :: t2)) = (pElems f (c2 :: t2)).map fun p => (JsValue.vArr p.1, p.2) := by
  rw [pVal_step f '[' (c2 :: t2) (by decide)]
  rw [if_neg (by decide), if_neg (by decide), if_neg (by decide), if_neg (by decide),
    if_pos rfl]
  rw [skipWs_cons_not_ws hws2]
  show (if c2 = ']' then some (JsValue.vArr [], t2)
        else (pElems f (c2 :: t2)).map fun p => (JsValue.vArr p.1, p.2)) = _
  rw [if_neg hne]

theorem pVal_lbrace_cons (f : Nat) (c2 : Char) (t2 : List Char)
    (hws2 : isJsonWs c2 = false) (hne : ¬(c2 = '}')) :
    pVal (f + 1) ('{' :: (c2 :: t2)) =
      (pMembers f (c2 :: t2)).map fun p => (JsValue.vMap p.1, p.2) := by
  rw [pVal_step f '{' (c2 :: t2) (by decide)]
  rw [if_neg (by decide), if_neg (by decide), if_neg (by decide), if_neg (by decide),
    if_neg (by decide), if_pos rfl]
  rw [skipWs_cons_not_ws hws2]
  show (if c2 = '}' then some (JsValue.vMap [], t2)
        else (pMembers f (c2 :: t2)).map fun p => (JsValue.vMap p.1, p.2)) = _
  rw [if_neg hne]

theorem pVal_minus (f : Nat) (t : List Char) :
    pVal (f + 1) ('-' :: t) = (pNum ('-' :: t)).map fun p => (JsValue.vNum p.1, p.2) := rfl

theorem pVal_quote (f : Nat) (t : List Char) :
    pVal (f + 1) ('"' :: t) =
      (pStrContent (t.length + 1) t).map fun p => (JsValue.vStr ⟨p.1⟩, p.2) := rfl

/-- The JSON parser inverts the JSON serializer on every Buffer-free value:
the conjunction of the value, array-elements, and object-members cases,
proved by induction on the parsing fuel. -/
theorem parse_enc_main : ∀ fuel : Nat,
    (∀ (v : JsValue) (rest : List Char), wfJson v = true →
      (jsonEnc v).length ≤ fuel → nonDigitHead rest →
      pVal fuel (jsonEnc v ++ rest) = some (v, rest)) ∧
    (∀ (x : JsValue) (t : List JsValue) (rest : List Char),
      wfJsonList (x :: t) = true →
      (encElems x t).length + 1 ≤ fuel → nonDigitHead rest →
      pElems fuel (encElems x t ++ (']' :: rest)) = some (x :: t, rest)) ∧
    (∀ (k : String) (v : JsValue) (t : List (String × JsValue)) (rest : List Char),
      wfJsonMap ((k, v) :: t) = true →
      (encMembers (k, v) t).length + 1 ≤ fuel → nonDigitHead rest →
      pMembers fuel (encMembers (k, v) t ++ ('}' :: rest)) = some ((k, v) :: t, rest)) := by
  intro fuel
  induction fuel with
  | zero =>
    refine ⟨?_, ?_, ?_⟩
    · intro v rest _ hlen _
      have := jsonEnc_length_pos v
      omega
    · intro x t rest _ hlen _
      omega
    · intro k v t rest _ hlen _
      omega
  | succ fuel ih =>
    obtain ⟨hP, hQ, hR⟩ := ih
    refine ⟨?_, ?_, ?_⟩
    · -- values
      intro v rest hwf hlen hrest
      cases v with
      | vNull =>
        rw [show jsonEnc .vNull ++ rest = 'n' :: 'u' :: 'l' :: 'l' :: rest from by
          simp [jsonEnc]]
        rfl
      | vBool b =>
        cases b with
        | true =>
          rw [show jsonEnc (.vBool true) ++ rest = 't' :: 'r' :: 'u' :: 'e' :: rest from by
            simp [jsonEnc]]
          rfl
        | false =>
          rw [show jsonEnc (.vBool false) ++ rest
              = 'f' :: 'a' :: 'l' :: 's' :: 'e' :: rest from by simp [jsonEnc]]
          rfl
      | vNum n =>
        rw [show jsonEnc (.vNum n) ++ rest = intEnc n ++ rest from by simp [jsonEnc]]
        by_cases hn : n < 0
        · have he : intEnc n ++ rest = '-' :: (natToDigits (-n).toNat ++ rest) := by
            unfold intEnc
            rw [if_pos hn]
            rfl
          rw [he, pVal_minus, ← he, pNum_intEnc n hrest]
          rfl
        · rcases hnd : natToDigits n.toNat with _ | ⟨c, t0⟩
          · exact absurd hnd (natToDigits_ne_nil _)
          · have hdig : isDigitChar c = true :=
              natToDigits_all_digits n.toNat c (by rw [hnd]; exact List.mem_cons_self ..)
            have he : intEnc n ++ rest = c :: (t0 ++ rest) := by
              unfold intEnc
              rw [if_neg hn, hnd]
              rfl
            rw [he, pVal_digit_head fuel c _ hdig, ← he, pNum_intEnc n hrest]
            rfl
      | vStr s =>
        have he : jsonEnc (.vStr s) ++ rest = '"' :: (strEncBody s.data ++ ('"' :: rest)) := by
          simp [jsonEnc, strEnc]
        rw [he, pVal_quote]
        rw [pStrContent_enc s.data _ rest (by
          have h1 := strEncBody_length_ge s.data
          simp only [List.length_append, List.length_cons]
          omega)]
        simp only [Option.map_some']
      | vBytes bs => simp [wfJson] at hwf
      | vArr xs =>
        cases xs with
        | nil =>
          rw [show jsonEnc (.vArr []) ++ rest = '[' :: (']' :: rest) from by simp [jsonEnc]]
          rfl
        | cons x t =>
          have hwf2 : wfJsonList (x :: t) = true := by simpa [wfJson] using hwf
          obtain ⟨ch, th, hx, hwsh, hh1, hh2, hh3⟩ := jsonEnc_head x
          obtain ⟨s0, hsplit⟩ := encElems_split x t
          have he : jsonEnc (.vArr (x :: t)) ++ rest
              = '[' :: (encElems x t ++ (']' :: rest)) := by simp [jsonEnc]
          have he2 : encElems x t ++ (']' :: rest) = ch :: (th ++ (s0 ++ (']' :: rest))) := by
            rw [hsplit, hx]
            simp
          have hlen2 : (encElems x t).length + 1 ≤ fuel := by
            have h3 : (jsonEnc (.vArr (x :: t))).length = (encElems x t).length + 2 := by
              simp [jsonEnc]
            omega
          rw [he, he2, pVal_lbracket_cons fuel ch _ hwsh hh1, ← he2]
          rw [hQ x t rest hwf2 hlen2 hrest]
          rfl
      | vMap kvs =>
        cases kvs with
        | nil =>
          rw [show jsonEnc (.vMap []) ++ rest = '{' :: ('}' :: rest) from by simp [jsonEnc]]
          rfl
        | cons kv t =>
          rcases kv with ⟨k, v⟩
          have hmap : wfJsonMap ((k, v) :: t) = true := by
            simp only [wfJson, Bool.and_eq_true] at hwf
            exact hwf.2
          obtain ⟨s0, hsplit⟩ := encMembers_split (k, v) t
          have he : jsonEnc (.vMap ((k, v) :: t)) ++ rest
              = '{' :: (encMembers (k, v) t ++ ('}' :: rest)) := by simp [jsonEnc]
          have he2 : encMembers (k, v) t ++ ('}' :: rest) = '"' :: (s0 ++ ('}' :: rest)) := by
            rw [hsplit]
            rfl
          have hlen2 : (encMembers (k, v) t).length + 1 ≤ fuel := by
            have h3 : (jsonEnc (.vMap ((k, v) :: t))).length
                = (encMembers (k, v) t).length + 2 := by simp [jsonEnc]
            omega
          rw [he, he2, pVal_lbrace_cons fuel '"' _ (by decide) (by decide), ← he2]
          rw [hR k v t rest hmap hlen2 hrest]
          rfl
    · -- array elements
      intro x t rest hwf hlen hrest
      have hwfx : wfJson x = true := by
        simp only [wfJsonList, Bool.and_eq_true] at hwf
        exact hwf.1
      cases t with
      | nil =>
        have he : encElems x [] ++ (']' :: rest) = jsonEnc x ++ (']' :: rest) := by
          simp [encElems]
        have hlx : (jsonEnc x).length ≤ fuel := by
          have h3 : (encElems x []).length = (jsonEnc x).length := by simp [encElems]
          omega
        have hpv : pVal fuel (jsonEnc x ++ (']' :: rest)) = some (x, ']' :: rest) :=
          hP x (']' :: rest) hwfx hlx (ndh_rbracket rest)
        rw [he]
        show (match pVal fuel (jsonEnc x ++ (']' :: rest)) with
              | none => none
              | some (v, r) =>
                match skipWs r with
                | ',' :: r2 => (pElems fuel r2).map fun p => (v :: p.1, p.2)
                | ']' :: r2 => some ([v], r2)
                | _ => none) = some ([x], rest)
        rw [hpv]
        rfl
      | cons y t2 =>
        have hwf2 : wfJsonList (y :: t2) = true := by
          simp only [wfJsonList, Bool.and_eq_true] at hwf ⊢
          exact hwf.2
        have he : encElems x (y :: t2) ++ (']' :: rest)
            = jsonEnc x ++ (',' :: (encElems y t2 ++ (']' :: rest))) := by
          simp [encElems]
        have hlens : (jsonEnc x).length + 1 + (encElems y t2).length
            = (encElems x (y :: t2)).length := by
          simp [encElems]
          omega
        have hlx : (jsonEnc x).length ≤ fuel := by omega
        have hpv : pVal fuel (jsonEnc x ++ (',' :: (encElems y t2 ++ (']' :: rest))))
            = some (x, ',' :: (encElems y t2 ++ (']' :: rest))) :=
          hP x _ hwfx hlx (ndh_comma _)
        rw [he]
        show (match pVal fuel (jsonEnc x ++ (',' :: (encElems y t2 ++ (']' :: rest)))) with
              | none => none
              | some (v, r) =>
                match skipWs r with
                | ',' :: r2 => (pElems fuel r2).map fun p => (v :: p.1, p.2)
                | ']' :: r2 => some ([v], r2)
                | _ => none) = some (x :: y :: t2, rest)
        rw [hpv]
        show (pElems fuel (encElems y t2 ++ (']' :: rest))).map
          (fun p => (x :: p.1, p.2)) = some (x :: y :: t2, rest)
        have hjx := jsonEnc_length_pos x
        rw [hQ y t2 rest hwf2 (by omega) hrest]
        rfl
    · -- object members
      intro k v t rest hwf hlen hrest
      have hwfv : wfJson v = true := by
        simp only [wfJsonMap, Bool.and_eq_true] at hwf
        exact hwf.1
      have hkb := strEncBody_length_ge k.data
      cases t with
      | nil =>
        have he : encMembers (k, v) [] ++ ('}' :: rest)
            = '"' :: (strEncBody k.data ++ ('"' :: (':' :: (jsonEnc v ++ ('}' :: rest))))) := by
          simp [encMembers, strEnc]
        have hlenm : (encMembers (k, v) []).length
            = (strEncBody k.data).length + 3 + (jsonEnc v).length := by
          simp [encMembers, strEnc]
          omega
        have hpv : pVal fuel (jsonEnc v ++ ('}' :: rest)) = some (v, '}' :: rest) :=
          hP v _ hwfv (by omega) (ndh_rbrace rest)
        rw [he]
        show (match pStrContent
                ((strEncBody k.data ++ ('"' :: (':' :: (jsonEnc v ++ ('}' :: rest))))).length + 1)
                (strEncBody k.data ++ ('"' :: (':' :: (jsonEnc v ++ ('}' :: rest))))) with
              | none => none
              | some (kChars, r1) =>
                match skipWs r1 with
                | ':' :: r2 =>
                  match pVal fuel r2 with
                  | none => none
                  | some (v2, r3) =>
                    match skipWs r3 with
                    | ',' :: r4 => (pMembers fuel r4).map fun p => ((⟨kChars⟩, v2) :: p.1, p.2)
                    | '}' :: r4 => some ([(⟨kChars⟩, v2)], r4)
                    | _ => none
                | _ => none) = some ([(k, v)], rest)
        rw [pStrContent_enc k.data _ _ (by
          simp only [List.length_append, List.length_cons]
          omega)]
        show (match pVal fuel (jsonEnc v ++ ('}' :: rest)) with
              | none => none
              | some (v2, r3) =>
                match skipWs r3 with
                | ',' :: r4 =>
                  (pMembers fuel r4).map fun p => ((⟨k.data⟩, v2) :: p.1, p.2)
                | '}' :: r4 => some ([(⟨k.data⟩, v2)], r4)
                | _ => none) = some ([(k, v)], rest)
        rw [hpv]
        show some ([((⟨k.data⟩ : String), v)], rest) = some ([(k, v)], rest)
        rw [show (⟨k.data⟩ : String) = k from by cases k; rfl]
      | cons kv2 t2 =>
        rcases kv2 with ⟨k2, v2⟩
        have hwf2 : wfJsonMap ((k2, v2) :: t2) = true := by
          simp only [wfJsonMap, Bool.and_eq_true] at hwf ⊢
          exact hwf.2
        have he : encMembers (k, v) ((k2, v2) :: t2) ++ ('}' :: rest)
            = '"' :: (strEncBody k.data ++ ('"' :: (':' :: (jsonEnc v ++
                (',' :: (encMembers (k2, v2) t2 ++ ('}' :: rest))))))) := by
          simp [encMembers, strEnc]
        have hlenm : (encMembers (k, v) ((k2, v2) :: t2)).length
            = (strEncBody k.data).length + 4 + (jsonEnc v).length
              + (encMembers (k2, v2) t2).length := by
          simp [encMembers, strEnc]
          omega
        have hpv : pVal fuel (jsonEnc v ++ (',' :: (encMembers (k2, v2) t2 ++ ('}' :: rest))))
            = some (v, ',' :: (encMembers (k2, v2) t2 ++ ('}' :: rest))) :=
          hP v _ hwfv (by omega) (ndh_comma _)
        rw [he]
        show (match pStrContent
                ((strEncBody k.data ++ ('"' :: (':' :: (jsonEnc v ++
                  (',' :: (encMembers (k2, v2) t2 ++ ('}' :: rest))))))).length + 1)
                (strEncBody k.data ++ ('"' :: (':' :: (jsonEnc v ++
                  (',' :: (encMembers (k2, v2) t2 ++ ('}' :: rest))))))) with
              | none => none
              | some (kChars, r1) =>
                match skipWs r1 with
                | ':' :: r2 =>
                  match pVal fuel r2 with
                  | none => none
                  | some (w, r3) =>
                    match skipWs r3 with
                    | ',' :: r4 => (pMembers fuel r4).map fun p => ((⟨kChars⟩, w) :: p.1, p.2)
                    | '}' :: r4 => some ([(⟨kChars⟩, w)], r4)
                    | _ => none
                | _ => none) = some ((k, v) :: (k2, v2) :: t2, rest)
        rw [pStrContent_enc k.data _ _ (by
          simp only [List.length_append, List.length_cons]
          omega)]
        show (match pVal fuel (jsonEnc v ++ (',' :: (encMembers (k2, v2) t2 ++ ('}' :: rest)))) with
              | none => none
              | some (w, r3) =>
                match skipWs r3 with
                | ',' :: r4 =>
                  (pMembers fuel r4).map fun p => ((⟨k.data⟩, w) :: p.1, p.2)
                | '}' :: r4 => some ([(⟨k.data⟩, w)], r4)
                | _ => none) = some ((k, v) :: (k2, v2) :: t2, rest)
        rw [hpv]
        show (pMembers fuel (encMembers (k2, v2) t2 ++ ('}' :: rest))).map
            (fun p => (((⟨k.data⟩ : String), v) :: p.1, p.2))
          = some ((k, v) :: (k2, v2) :: t2, rest)
        rw [hR k2 v2 t2 rest hwf2 (by omega) hrest]
        rw [show (⟨k.data⟩ : String) = k from by cases k; rfl]
        rfl

theorem ndh_nil : nonDigitHead [] := by
  intro c hc
  simp at hc

theorem jsonParse_jsonStringify (v : JsValue) (hwf : wfJson v = true) :
    jsonParse (jsonStringify v) = some v := by
  have h := (parse_enc_main ((jsonEnc v).length + 1)).1 v [] hwf (by omega) ndh_nil
  rw [List.append_nil] at h
  unfold jsonParse jsonStringify
  rw [show (⟨jsonEnc v⟩ : String).data = jsonEnc v from rfl, h]
  rfl

theorem ne_of_data_head {s1 s2 : String} {c1 c2 : Char} {t1 t2 : List Char}
    (h1 : s1.data = c1 :: t1) (h2 : s2.data = c2 :: t2) (h : c1 ≠ c2) : s1 ≠ s2 := by
  intro he
  rw [he, h2] at h1
  injection h1 with h3
  exact h h3.symm

theorem parse_of_jsonParse_some {s : String} {v : JsValue} (hj : jsonParse s = some v)
    (h1 : s ≠ "N") (h2 : s ≠ "n") (h3 : s ≠ "T") (h4 : s ≠ "t")
    (h5 : s ≠ "F") (h6 : s ≠ "f") :
    SnowflakeAol.parse s = v := by
  unfold SnowflakeAol.parse
  rw [if_neg (by simp [h1, h2]), if_neg (by simp [h3, h4]), if_neg (by simp [h5, h6]), hj]

/-- C5 (amended): the AOL text codec round-trips every value the store can
realize except byte strings: `parse(stringify(v)) = v` for nil, booleans,
(integer) numbers, strings, sequences, and string-keyed mappings.  Byte
strings are excluded: a Buffer serializes through `Buffer.prototype.toJSON`
and reparses as a plain `\x7b type, data \x7d` mapping (see the
counterexample). -/
theorem c5_parse_stringify_roundtrip (v : JsValue) (hwf : wfJson v = true) :
    SnowflakeAol.parse (SnowflakeAol.stringify v) = v := by
  have hN : ("N" : String).data = 'N' :: [] := rfl
  have hn : ("n" : String).data = 'n' :: [] := rfl
  have hT : ("T" : String).data = 'T' :: [] := rfl
  have ht : ("t" : String).data = 't' :: [] := rfl
  have hF : ("F" : String).data = 'F' :: [] := rfl
  have hf : ("f" : String).data = 'f' :: [] := rfl
  cases v with
  | vNull => rfl
  | vBool b => cases b <;> rfl
  | vBytes bs => simp [wfJson] at hwf
  | vNum n =>
    have hs : SnowflakeAol.stringify (.vNum n) = jsonStringify (.vNum n) := by
      show (⟨intEnc n⟩ : String) = _
      simp [jsonStringify, jsonEnc]
    obtain ⟨c, t, hct, -⟩ := jsonEnc_head (.vNum n)
    have hd : (jsonStringify (.vNum n)).data = c :: t := by
      rw [show (jsonStringify (.vNum n)).data = jsonEnc (.vNum n) from rfl, hct]
    have hrange : c.toNat = 45 ∨ (48 ≤ c.toNat ∧ c.toNat ≤ 57) := by
      have henc : jsonEnc (.vNum n) = intEnc n := by simp [jsonEnc]
      rw [henc] at hct
      unfold intEnc at hct
      by_cases hneg : n < 0
      · rw [if_pos hneg] at hct
        injection hct with hc1 _
        left
        rw [← hc1]
        rfl
      · rw [if_neg hneg] at hct
        right
        have : isDigitChar c = true := natToDigits_all_digits n.toNat c
          (by rw [hct]; exact List.mem_cons_self ..)
        simpa [isDigitChar] using this
    rw [hs]
    refine parse_of_jsonParse_some (jsonParse_jsonStringify _ hwf) ?_ ?_ ?_ ?_ ?_ ?_ <;>
      exact ne_of_data_head hd (by assumption) (char_ne_of_toNat_ne (by
        first
          | (have : ('N').toNat = 78 := rfl; omega)
          | (have : ('n').toNat = 110 := rfl; omega)
          | (have : ('T').toNat = 84 := rfl; omega)
          | (have : ('t').toNat = 116 := rfl; omega)
          | (have : ('F').toNat = 70 := rfl; omega)
          | (have : ('f').toNat = 102 := rfl; omega)))
  | vStr s =>
    have hd : (jsonStringify (.vStr s)).data = '"' :: (strEncBody s.data ++ ['"']) := by
      rw [show (jsonStringify (.vStr s)).data = jsonEnc (.vStr s) from rfl]
      simp [jsonEnc, strEnc]
    show SnowflakeAol.parse (jsonStringify (.vStr s)) = _
    exact parse_of_jsonParse_some (jsonParse_jsonStringify _ hwf)
      (ne_of_data_head hd hN (by decide)) (ne_of_data_head hd hn (by decide))
      (ne_of_data_head hd hT (by decide)) (ne_of_data_head hd ht (by decide))
      (ne_of_data_head hd hF (by decide)) (ne_of_data_head hd hf (by decide))
  | vArr xs =>
    obtain ⟨c, t, hct, -⟩ := jsonEnc_head (.vArr xs)
    have hc : c = '[' := by
      cases xs with
      | nil =>
        have : jsonEnc (.vArr []) = ['[', ']'] := by simp [jsonEnc]
        rw [this] at hct
        injection hct with h1 _
        exact h1.symm
      | cons x t2 =>
        have : jsonEnc (.vArr (x :: t2)) = '[' :: (encElems x t2 ++ [']']) := by
          simp [jsonEnc]
        rw [this] at hct
        injection hct with h1 _
        exact h1.symm
    subst hc
    have hd : (jsonStringify (.vArr xs)).data = '[' :: t := by
      rw [show (jsonStringify (.vArr xs)).data = jsonEnc (.vArr xs) from rfl, hct]
    show SnowflakeAol.parse (jsonStringify (.vArr xs)) = _
    exact parse_of_jsonParse_some (jsonParse_jsonStringify _ hwf)
      (ne_of_data_head hd hN (by decide)) (ne_of_data_head hd hn (by decide))
      (ne_of_data_head hd hT (by decide)) (ne_of_data_head hd ht (by decide))
      (ne_of_data_head hd hF (by decide)) (ne_of_data_head hd hf (by decide))
  | vMap kvs =>
    obtain ⟨c, t, hct, -⟩ := jsonEnc_head (.vMap kvs)
    have hc : c = '{' := by
      cases kvs with
      | nil =>
        have : jsonEnc (.vMap []) = ['{', '}'] := by simp [jsonEnc]
        rw [this] at hct
        injection hct with h1 _
        exact h1.symm
      | cons kv t2 =>
        have : jsonEnc (.vMap (kv :: t2)) = '{' :: (encMembers kv t2 ++ ['}']) := by
          simp [jsonEnc]
        rw [this] at hct
        injection hct with h1 _
        exact h1.symm
    subst hc
    have hd : (jsonStringify (.vMap kvs)).data = '{' :: t := by
      rw [show (jsonStringify (.vMap kvs)).data = jsonEnc (.vMap kvs) from rfl, hct]
    show SnowflakeAol.parse (jsonStringify (.vMap kvs)) = _
    exact parse_of_jsonParse_some (jsonParse_jsonStringify _ hwf)
      (ne_of_data_head hd hN (by decide)) (ne_of_data_head hd hn (by decide))
      (ne_of_data_head hd hT (by decide)) (ne_of_data_head hd ht (by decide))
      (ne_of_data_head hd hF (by decide)) (ne_of_data_head hd hf (by decide))

theorem natToDigits_one : natToDigits 1 = ['1'] := by
  unfold natToDigits
  norm_num
  rfl

theorem natToDigits_two : natToDigits 2 = ['2'] := by
  unfold natToDigits
  norm_num
  rfl

theorem stringify_bytes_12 :
    SnowflakeAol.stringify (.vBytes [1, 2]) = "\x7b\"type\":\"Buffer\",\"data\":[1,2]\x7d" := by
  have hbuf : bufEnc [1, 2] =
      '{' :: "\"type\":\"Buffer\",\"data\":[".data ++ (['1'] ++ ',' :: ['2']) ++ [']', '}'] := by
    unfold bufEnc
    simp only [natEncList]
    rw [natToDigits_one, natToDigits_two]
  show jsonStringify (.vBytes [1, 2]) = _
  unfold jsonStringify
  rw [show jsonEnc (.vBytes [1, 2]) = bufEnc [1, 2] from by simp [jsonEnc], hbuf]
  decide

/-- C5 counterexample: byte strings do not round-trip.  A two-byte Buffer
stringifies (through `Buffer.prototype.toJSON`) to
`\x7b"type":"Buffer","data":[1,2]\x7d`, which `parse` decodes as a plain
mapping — not a Buffer — refuting the claim for the byte-string type. -/
theorem c5_counterexample :
    SnowflakeAol.parse (SnowflakeAol.stringify (.vBytes [1, 2]))
      = .vMap [("type", .vStr "Buffer"), ("data", .vArr [.vNum 1, .vNum 2])] ∧
    SnowflakeAol.parse (SnowflakeAol.stringify (.vBytes [1, 2])) ≠ .vBytes [1, 2] := by
  have hparse : SnowflakeAol.parse "\x7b\"type\":\"Buffer\",\"data\":[1,2]\x7d"
      = JsValue.vMap [("type", .vStr "Buffer"), ("data", .vArr [.vNum 1, .vNum 2])] := rfl
  constructor
  · rw [stringify_bytes_12, hparse]
  · rw [stringify_bytes_12, hparse]
    intro hx
    exact JsValue.noConfusion hx

/-- Witness for `c5_parse_stringify_roundtrip` on a concrete nested value. -/
theorem c5_witness :
    wfJson (.vArr [.vNum 5, .vStr "ab", .vMap [("k", .vBool true)]]) = true ∧
    SnowflakeAol.parse (SnowflakeAol.stringify
        (.vArr [.vNum 5, .vStr "ab", .vMap [("k", .vBool true)]]))
      = .vArr [.vNum 5, .vStr "ab", .vMap [("k", .vBool true)]] := by
  have hwf : wfJson (.vArr [.vNum 5, .vStr "ab", .vMap [("k", .vBool true)]]) = true := by
    simp [wfJson, wfJsonList, wfJsonMap]
  exact ⟨hwf, c5_parse_stringify_roundtrip _ hwf⟩

/-! ## The AOL writer state machine and the replay parser
(`SnowflakeAol`, instance part, and `parseInstructions`) -/

/-- Assignment to a JS object property: replace in place when the key exists
(JS objects keep first-insertion order), otherwise append. -/
def assocUpd {α : Type} (l : List (String × α)) (k : String) (v : α) :
    List (String × α) :=
  if l.any (fun p => p.1 = k) then
    l.map fun p => if p.1 = k then (k, v) else p
  else l ++ [(k, v)]

/-- JS `String.prototype.split` with a one-character separator. -/
def splitOnChar (sep : Char) : List Char → List (List Char)
  | [] => [[]]
  | c :: t =>
    let r := splitOnChar sep t
    if c = sep then [] :: r
    else
      match r with
      | [] => [[c]]
      | h :: t2 => (c :: h) :: t2

/-- JS `String.prototype.trim` (on character lists). -/
def jsTrimChars (l : List Char) : List Char :=
  ((l.dropWhile isJsWhitespace).reverse.dropWhile isJsWhitespace).reverse

/-- One parsed AOL instruction.  The JS code pushes the tag and its payload
as two consecutive array slots consumed pairwise by the replayer
(SnowflakeCoreHelper.js:330-341); the pair is modelled as one constructor. -/
inductive Instruction where
  | iSet (kvs : List (String × JsValue))
  | iRemove (keys : List String)

namespace SnowflakeAol

/-- One non-blank line of `parseInstructions` (SnowflakeAol.js:135-155):
`;` comments yield nothing, `#`-lines are removals (every space-separated
token loses its first character), anything else is a set whose last
`<`-segment is the value and the other segments are keys. -/
def lineInstr (l : List Char) : Option Instruction :=
  match l with
  | ';' :: _ => none
  | '#' :: t =>
    some (.iRemove ((((splitOnChar ' ' ('#' :: t)).filter (· ≠ [])).map
      fun k => (⟨k.drop 1⟩ : String))))
  | _ =>
    let parts := splitOnChar '<' l
    let value := parse ⟨(parts.getLast?.getD [])⟩
    some (.iSet ((parts.dropLast).foldl (fun m k => assocUpd m (⟨k⟩ : String) value) []))

/-- `SnowflakeAol.parseInstructions` (SnowflakeAol.js:131-158): split on
newlines, trim, drop blank lines, then parse each remaining line. -/
def parseInstructions (input : String) : List Instruction :=
  (((splitOnChar '\n' input.data).map jsTrimChars).filter (· ≠ [])).filterMap lineInstr

/-- `SnowflakeAol.encodeSets` (SnowflakeAol.js:91-109): group keys by the
stringified value (first-appearance order, as a JS `Map` iterates) and emit
`key1<key2<…<value` lines. -/
def encodeSets (q : List (String × JsValue)) : String :=
  let pairs := q.map fun kv => (kv.1, stringify kv.2)
  let values := (pairs.map Prod.snd).eraseDups
  String.intercalate "\n" (values.map fun sv =>
    String.intercalate "<" ((pairs.filter fun p => p.2 = sv).map Prod.fst) ++ "<" ++ sv)

/-- The writer-side state of a `SnowflakeAol` instance: the current backup
file name, the pending queue, the dirty flag, and everything written to the
current file so far. -/
structure AolState where
  current_file_name : Option String
  queue : List (String × JsValue)
  instructions_changed : Bool
  fileContent : String

/-- A freshly constructed `SnowflakeAol` (constructor, SnowflakeAol.js:15-25). -/
def initAol : AolState :=
  { current_file_name := none, queue := [], instructions_changed := false, fileContent := "" }

/-- `rotate` (SnowflakeAol.js:176-183): only when no file name exists yet is
one assigned (`<unix seconds>.sfb`); otherwise the state is returned
unchanged — there is no size check and no switch to a new file. -/
def rotate (nowSec : Nat) (s : AolState) : AolState :=
  if s.current_file_name.isNone then
    { s with current_file_name := some (toString nowSec ++ ".sfb") }
  else s

/-- `add` (SnowflakeAol.js:160-164). -/
def add (s : AolState) (k : String) (v : JsValue) : AolState :=
  { s with queue := assocUpd s.queue k v, instructions_changed := true }

/-- One tick of the 5-second flush interval installed by `#jobs`
(SnowflakeAol.js:210-242): skip when nothing changed or the queue is empty,
otherwise append `encodeSets(queue)` plus a newline to the current file and
clear queue and dirty flag.  The interval body never calls `rotate` and
never consults any size limit. -/
def jobsTick (s : AolState) : AolState :=
  if !s.instructions_changed then s
  else if s.queue.isEmpty then s
  else { s with queue := [],
                fileContent := s.fileContent ++ encodeSets s.queue ++ "\n",
                instructions_changed := false }

end SnowflakeAol

/-- C6 (amended): the AOL never rotates.  `rotate` assigns a timestamped
name only when none exists and otherwise changes nothing, and the periodic
flush job never changes the current file name no matter how large the file
grows — the configured `persistent.backup_size_limit` is not consulted by
the writer at all. -/
theorem c6_aol_never_rotates (s : SnowflakeAol.AolState) (now : Nat) :
    (∀ nm, s.current_file_name = some nm →
      SnowflakeAol.rotate now s = s ∧
      (SnowflakeAol.jobsTick s).current_file_name = some nm) ∧
    (SnowflakeAol.jobsTick s).current_file_name = s.current_file_name := by
  have hj : (SnowflakeAol.jobsTick s).current_file_name = s.current_file_name := by
    unfold SnowflakeAol.jobsTick
    by_cases h1 : (!s.instructions_changed) = true
    · rw [if_pos h1]
    · rw [if_neg h1]
      by_cases h2 : s.queue.isEmpty = true
      · rw [if_pos h2]
      · rw [if_neg h2]
  refine ⟨?_, hj⟩
  intro nm hnm
  constructor
  · unfold SnowflakeAol.rotate
    rw [if_neg (by simp [hnm])]
  · rw [hj, hnm]

/-- C6 counterexample: with a configured size limit of 1 byte, a flush that
grows `100.sfb` to 4 bytes (exceeding the limit) leaves the writer on the
same file — no new timestamped file is opened. -/
theorem c6_counterexample :
    (SnowflakeAol.jobsTick (SnowflakeAol.add (SnowflakeAol.rotate 100 SnowflakeAol.initAol)
        "k" (.vBool true))).current_file_name = some "100.sfb" ∧
    (0 : Nat) < 1 ∧
    1 < (SnowflakeAol.jobsTick (SnowflakeAol.add (SnowflakeAol.rotate 100 SnowflakeAol.initAol)
        "k" (.vBool true))).fileContent.length := by
  refine ⟨rfl, Nat.zero_lt_one, ?_⟩
  show 1 < (4 : Nat)
  omega

/-- Witness for `c6_aol_never_rotates` on a live state. -/
theorem c6_witness :
    (SnowflakeAol.rotate 100 SnowflakeAol.initAol).current_file_name = some "100.sfb" ∧
    SnowflakeAol.rotate 200 (SnowflakeAol.rotate 100 SnowflakeAol.initAol)
      = SnowflakeAol.rotate 100 SnowflakeAol.initAol := by
  refine ⟨rfl, ?_⟩
  exact ((c6_aol_never_rotates (SnowflakeAol.rotate 100 SnowflakeAol.initAol) 200).1
    "100.sfb" rfl).1

theorem splitOnChar_ne_nil (sep : Char) (l : List Char) : splitOnChar sep l ≠ [] := by
  cases l with
  | nil => simp [splitOnChar]
  | cons c t =>
    simp only [splitOnChar]
    by_cases h : c = sep
    · simp [h]
    · rcases hr : splitOnChar sep t with _ | ⟨h2, t2⟩ <;> simp [h, hr]

theorem splitOnChar_append_sep (sep : Char) (a b : List Char) :
    splitOnChar sep (a ++ sep :: b) = splitOnChar sep a ++ splitOnChar sep b := by
  induction a with
  | nil =>
    show splitOnChar sep (sep :: b) = [[]] ++ splitOnChar sep b
    simp [splitOnChar]
  | cons c t ih =>
    show splitOnChar sep (c :: (t ++ sep :: b)) = _
    simp only [splitOnChar, ih]
    by_cases h : c = sep
    · simp [h, splitOnChar]
    · rcases hr : splitOnChar sep t with _ | ⟨h2, t2⟩
      · exact absurd hr (splitOnChar_ne_nil sep t)
      · simp [h, hr]

theorem splitOnChar_no_sep {sep : Char} {l : List Char} (h : sep ∉ l) :
    splitOnChar sep l = [l] := by
  induction l with
  | nil => rfl
  | cons c t ih =>
    have hc : ¬(c = sep) := fun he => h (he ▸ List.mem_cons_self c t)
    have ht : sep ∉ t := fun hm => h (List.mem_cons_of_mem _ hm)
    simp only [splitOnChar, hc, if_neg, not_false_iff, ih ht]

/-- C7 (amended): replay ignores blank lines and lines starting (after
trimming) with `;`, but a final line that is not terminated by a newline is
parsed and applied exactly like a terminated one — appending or removing the
trailing `\n` never changes the parsed instruction list. -/
theorem c7_final_line_not_ignored :
    (∀ cs : List Char,
      SnowflakeAol.parseInstructions ⟨cs ++ ['\n']⟩ = SnowflakeAol.parseInstructions ⟨cs⟩) ∧
    (∀ cs l : List Char, '\n' ∉ l →
      (jsTrimChars l = [] ∨ (∃ t, jsTrimChars l = ';' :: t)) →
      SnowflakeAol.parseInstructions ⟨cs ++ '\n' :: l⟩
        = SnowflakeAol.parseInstructions ⟨cs⟩) := by
  constructor
  · intro cs
    unfold SnowflakeAol.parseInstructions
    rw [show (⟨cs ++ ['\n']⟩ : String).data = cs ++ '\n' :: [] from rfl,
      show (⟨cs⟩ : String).data = cs from rfl, splitOnChar_append_sep]
    simp [jsTrimChars, splitOnChar]
  · intro cs l hnl hline
    unfold SnowflakeAol.parseInstructions
    rw [show (⟨cs ++ '\n' :: l⟩ : String).data = cs ++ '\n' :: l from rfl,
      show (⟨cs⟩ : String).data = cs from rfl, splitOnChar_append_sep,
      splitOnChar_no_sep hnl]
    rcases hline with h0 | ⟨t, ht⟩
    · simp [h0]
    · simp only [List.map_append, List.map_cons, List.map_nil, List.filter_append,
        List.filterMap_append, ht]
      rw [show List.filter (· ≠ []) [';' :: t] = [';' :: t] from by simp]
      rw [show List.filterMap SnowflakeAol.lineInstr [';' :: t] = [] from by
        simp [SnowflakeAol.lineInstr]]
      simp

/-- C7 counterexample: the file content `"#a\n#b"` ends in a line with no
terminating newline, yet replay parses *both* removal lines; the claim that
the final unterminated line is ignored would demand `[remove ["a"]]` alone. -/
theorem c7_counterexample :
    SnowflakeAol.parseInstructions "#a\n#b" = [.iRemove ["a"], .iRemove ["b"]] ∧
    SnowflakeAol.parseInstructions "#a\n#b" ≠ [.iRemove ["a"]] := by
  have hp : SnowflakeAol.parseInstructions "#a\n#b"
      = [.iRemove ["a"], .iRemove ["b"]] := rfl
  refine ⟨hp, ?_⟩
  intro h
  rw [hp] at h
  simpa using congrArg List.length h

/-- Witness for `c7_final_line_not_ignored` at concrete file contents. -/
theorem c7_witness :
    SnowflakeAol.parseInstructions ⟨"#a".data ++ ['\n']⟩
      = SnowflakeAol.parseInstructions "#a" ∧
    SnowflakeAol.parseInstructions ⟨"#a".data ++ '\n' :: ";c".data⟩
      = SnowflakeAol.parseInstructions "#a" := by
  constructor
  · exact c7_final_line_not_ignored.1 ("#a".data)
  · exact c7_final_line_not_ignored.2 ("#a".data) (";c".data) (by decide)
      (Or.inr ⟨['c'], rfl⟩)

/-! ## The CLI lockdown tracker (`SnowflakeCLI`, src/unnamed/part_002)

`Snowflake.now(false)` is `Math.floor(Date.now() / 1000)` — a clock in
*seconds* (part_004:276-278).  All `now` parameters below are that clock. -/

/-- One `#lockdown` entry: `time` is the stored expiry, `attempts` the
cumulative failed-attempt count. -/
structure LockEntry where
  time : Int
  attempts : Int
deriving Repr, DecidableEq

/-- The CLI configuration fields consulted by the lockdown logic, as
normalized in `start()` (part_002:561-566): `cooldown = max(yaml, 5)`,
`max_login_attempt = max(yaml, 0)`. -/
structure CliConfigs where
  lockdown : String
  cooldown : Int
  max_login_attempt : Int

/-- The mutable `#lockdown` map of `SnowflakeCLI`. -/
structure CliState where
  lockdown : List (String × LockEntry)

/-- `lockedDown(subject)` for a non-null subject (part_002:192-214): locked
iff brute-force protection is on, the mode is `ip` or `token`, both stored
numbers are truthy, the clock has not passed `time`, and the attempt count
reached the maximum. -/
def lockedDown (cfg : CliConfigs) (st : CliState) (now : Int) (subject : String) : Bool :=
  if cfg.max_login_attempt ≤ 0 then false
  else if ¬(cfg.lockdown = "ip" ∨ cfg.lockdown = "token") then false
  else
    match assocFind st.lockdown subject with
    | none => false
    | some e =>
      if e.time ≠ 0 ∧ e.attempts ≠ 0 then
        decide (now ≤ e.time ∧ cfg.max_login_attempt ≤ e.attempts)
      else false

/-- The failure branch of the `cli_server_login_attempt` handler
(part_002:599-624) for a resolved subject: set
`time = now + cooldown * 1000` (although `now` ticks in seconds) and
increment `attempts`. -/
def loginAttemptFail (cfg : CliConfigs) (st : CliState) (now : Int) (subject : String) :
    CliState :=
  if 0 < cfg.max_login_attempt then
    let prevAttempts : Int :=
      match assocFind st.lockdown subject with
      | some e => if e.attempts ≠ 0 then e.attempts else 0
      | none => 0
    let entry : LockEntry := { time := now + cfg.cooldown * 1000, attempts := prevAttempts + 1 }
    { st with lockdown := assocUpd st.lockdown subject entry }
  else st

/-- C4: evaluation of the code at the failing input.  Configuration:
`cli_lockdown = "ip"`, `cli_cooldown = 60` (seconds, per the configuration
file comment), `max_cli_login_attempt = 1`.  One failed attempt at clock
second 1,000,000 stores the expiry `1,060,000` (= now + 60·1000 on a
*seconds* clock); at second 1,000,061 — a full 61 seconds after the failure,
so the 60-second cooldown has elapsed — `lockedDown` still answers `true`,
and the stored expiry differs from the documented `now + cooldown` by a
factor-1000 unit mismatch. -/
theorem c4_lockdown_cooldown_units_bug :
    (assocFind (loginAttemptFail
        { lockdown := "ip", cooldown := 60, max_login_attempt := 1 }
        { lockdown := [] } 1000000 "10.0.0.1").lockdown "10.0.0.1"
      = some { time := 1060000, attempts := 1 }) ∧
    lockedDown { lockdown := "ip", cooldown := 60, max_login_attempt := 1 }
      (loginAttemptFail { lockdown := "ip", cooldown := 60, max_login_attempt := 1 }
        { lockdown := [] } 1000000 "10.0.0.1") 1000061 "10.0.0.1" = true ∧
    (1000000 + 60 : Int) ≠ 1060000 := by
  refine ⟨by decide, by decide, by decide⟩

/-! ### C10: SnowflakeRangeQuery — binarySearch and findSmallestFit
(src/src/core/SnowflakeRangeQuery.js) -/

/-- Default slot used for out-of-range list reads; never reached on the
in-range accesses the proofs perform. -/
def slot0 : TrashSlot := { size := 0, position := 0, length := 0 }

/-- The while loop of binarySearch (SnowflakeRangeQuery.js:26-54).  The JS
variables left, right, result are carried as arguments; the fuel argument
only bounds the number of iterations (the window right + 1 - left shrinks
by at least one per iteration, so array.length iterations always suffice,
and binarySearch passes exactly that).  Math.floor((left + right) / 2) is
Int division (ediv rounds toward negative infinity, as Math.floor does).
JS array[mid].size on an out-of-range mid would throw a TypeError,
modelled as none; this is unreachable from binarySearch because
0 ≤ left ≤ mid ≤ right < length whenever the loop body runs. -/
def binarySearchGo (array : List TrashSlot) (target : Int) :
    Nat → Int → Int → Option TrashSlot → Option TrashSlot
  | 0, _, _, result => result
  | fuel + 1, left, right, result =>
    if left ≤ right then
      match array.get? ((left + right) / 2).toNat with
      | none => none
      | some a =>
        if target ≤ (a.size : Int) then
          binarySearchGo array target fuel left ((left + right) / 2 - 1) (some a)
        else
          binarySearchGo array target fuel ((left + right) / 2 + 1) right result
    else result

/-- binarySearch(array, target) (SnowflakeRangeQuery.js:26-54).  The
compared field is hard-coded to .size in the source; JS null is none. -/
def binarySearch (array : List TrashSlot) (target : Int) : Option TrashSlot :=
  binarySearchGo array target array.length 0 ((array.length : Int) - 1) none

/-- findSmallestFit("size", fit) (SnowflakeRangeQuery.js:87-98).  On an
empty array the JS code throws (largestSizeElement is undefined, so
largestSizeElement[field_name] faults), modelled as none; the ?? null
branch never fires because every slot carries a numeric size, and
if(smallestFit) tests object truthiness, which holds for every object. -/
def findSmallestFit (array : List TrashSlot) (fit : Int) : Option TrashSlot :=
  match array.getLast? with
  | none => none
  | some largestSizeElement =>
    if fit ≤ (largestSizeElement.size : Int) then
      match binarySearch array fit with
      | some smallestFit => some smallestFit
      | none => none
    else none

/-- The slot at index i fits the target. -/
def fitsAt (array : List TrashSlot) (target : Int) (i : Nat) : Prop :=
  target ≤ ((array.getD i slot0).size : Int)

lemma getD_eq_get (array : List TrashSlot) (i : Nat) (hi : i < array.length) :
    array.getD i slot0 = array.get ⟨i, hi⟩ := by
  rw [List.getD_eq_get?, List.get?_eq_get hi, Option.getD_some]

lemma getD_mem (array : List TrashSlot) (i : Nat) (hi : i < array.length) :
    array.getD i slot0 ∈ array := by
  rw [getD_eq_get array i hi]
  exact array.get_mem i hi

lemma getLast?_eq_getD (array : List TrashSlot) (h : array ≠ []) :
    array.getLast? = some (array.getD (array.length - 1) slot0) := by
  have hlen : array.length - 1 < array.length :=
    Nat.sub_lt (List.length_pos.mpr h) Nat.one_pos
  rw [List.getLast?_eq_getLast array h, List.getLast_eq_get,
    List.getD_eq_get?, List.get?_eq_get hlen, Option.getD_some]

lemma sorted_size_mono (array : List TrashSlot)
    (hs : List.Sorted (fun a b : TrashSlot => a.size ≤ b.size) array)
    (i j : Nat) (hij : i ≤ j) (hj : j < array.length) :
    (array.getD i slot0).size ≤ (array.getD j slot0).size := by
  rcases Nat.eq_or_lt_of_le hij with rfl | hlt
  · exact le_refl _
  · have hi : i < array.length := Nat.lt_trans hlt hj
    rw [getD_eq_get array i hi, getD_eq_get array j hj]
    exact (List.pairwise_iff_get.mp hs) ⟨i, hi⟩ ⟨j, hj⟩ (Fin.mk_lt_mk.mpr hlt)

lemma binarySearchFinal (array : List TrashSlot) (target : Int) (left right : Int)
    (result : Option TrashSlot)
    (hlr : ¬ left ≤ right)
    (hleft : ∀ i : Nat, (i : Int) < left → ¬ fitsAt array target i)
    (hres : result = none ∧ right = (array.length : Int) - 1 ∨
      ∃ j : Nat, result = some (array.getD j slot0) ∧ (j : Int) = right + 1 ∧
        j < array.length ∧ fitsAt array target j) :
    ((∀ i : Nat, i < array.length → ¬ fitsAt array target i) ∧ result = none) ∨
    (∃ j : Nat, j < array.length ∧ fitsAt array target j ∧
      (∀ i : Nat, i < j → ¬ fitsAt array target i) ∧
      result = some (array.getD j slot0)) := by
  rcases hres with ⟨h1, h2⟩ | ⟨j, hj1, hj2, hj3, hj4⟩
  · left
    refine ⟨?_, h1⟩
    intro i hi
    exact hleft i (by omega)
  · right
    refine ⟨j, hj3, hj4, ?_, hj1⟩
    intro i hij
    exact hleft i (by omega)

lemma binarySearchGo_correct (array : List TrashSlot) (target : Int)
    (hmono : ∀ i j : Nat, i ≤ j → j < array.length →
      fitsAt array target i → fitsAt array target j) :
    ∀ (n : Nat) (left right : Int) (result : Option TrashSlot),
      (right + 1 - left).toNat ≤ n →
      0 ≤ left → right ≤ (array.length : Int) - 1 →
      (∀ i : Nat, (i : Int) < left → ¬ fitsAt array target i) →
      (result = none ∧ right = (array.length : Int) - 1 ∨
        ∃ j : Nat, result = some (array.getD j slot0) ∧ (j : Int) = right + 1 ∧
          j < array.length ∧ fitsAt array target j) →
      ((∀ i : Nat, i < array.length → ¬ fitsAt array target i) ∧
          binarySearchGo array target n left right result = none) ∨
      (∃ j : Nat, j < array.length ∧ fitsAt array target j ∧
        (∀ i : Nat, i < j → ¬ fitsAt array target i) ∧
        binarySearchGo array target n left right result = some (array.getD j slot0)) := by
  intro n
  induction n with
  | zero =>
    intro left right result hfuel hl hr hleft hres
    exact binarySearchFinal array target left right result (by omega) hleft hres
  | succ n ih =>
    intro left right result hfuel hl hr hleft hres
    by_cases hlr : left ≤ right
    · have hmidlo : left ≤ (left + right) / 2 := by omega
      have hmidhi : (left + right) / 2 ≤ right := by omega
      have hmidlen : ((left + right) / 2).toNat < array.length := by omega
      have hg : array.get? ((left + right) / 2).toNat =
          some (array.getD ((left + right) / 2).toNat slot0) := by
        rw [getD_eq_get array _ hmidlen]
        exact List.get?_eq_get hmidlen
      have hstep : binarySearchGo array target (n + 1) left right result =
          (if target ≤ ((array.getD ((left + right) / 2).toNat slot0).size : Int) then
            binarySearchGo array target n left ((left + right) / 2 - 1)
              (some (array.getD ((left + right) / 2).toNat slot0))
          else binarySearchGo array target n ((left + right) / 2 + 1) right result) := by
        show (if left ≤ right then
            match array.get? ((left + right) / 2).toNat with
            | none => none
            | some a =>
              if target ≤ (a.size : Int) then
                binarySearchGo array target n left ((left + right) / 2 - 1) (some a)
              else
                binarySearchGo array target n ((left + right) / 2 + 1) right result
          else result) = _
        rw [if_pos hlr, hg]
      have hfuel1 : ((left + right) / 2 - 1 + 1 - left).toNat ≤ n := by
        clear hres hleft hg hstep ih hmono
        omega
      have hr1 : (left + right) / 2 - 1 ≤ (array.length : Int) - 1 := by
        clear hres hleft hg hstep ih hmono
        omega
      have hcast : ((((left + right) / 2).toNat : Nat) : Int) = (left + right) / 2 - 1 + 1 := by
        clear hres hleft hg hstep ih hmono
        omega
      have hfuel2 : (right + 1 - ((left + right) / 2 + 1)).toNat ≤ n := by
        clear hres hleft hg hstep ih hmono
        omega
      have hl2 : (0 : Int) ≤ (left + right) / 2 + 1 := by
        clear hres hleft hg hstep ih hmono
        omega
      by_cases hp : target ≤ ((array.getD ((left + right) / 2).toNat slot0).size : Int)
      · rw [hstep, if_pos hp]
        refine ih left ((left + right) / 2 - 1)
          (some (array.getD ((left + right) / 2).toNat slot0))
          hfuel1 hl hr1 hleft (Or.inr ?_)
        exact ⟨((left + right) / 2).toNat, rfl, hcast, hmidlen, hp⟩
      · rw [hstep, if_neg hp]
        refine ih ((left + right) / 2 + 1) right result hfuel2 hl2 hr ?_ hres
        intro i hi
        by_cases hil : (i : Int) < left
        · exact hleft i hil
        · intro hfit
          have hile : i ≤ ((left + right) / 2).toNat := by
            clear hres hleft hg hstep ih hmono hfit hp
            omega
          exact hp (hmono i ((left + right) / 2).toNat hile hmidlen hfit)
    · have hstep : binarySearchGo array target (n + 1) left right result = result := by
        show (if left ≤ right then
            match array.get? ((left + right) / 2).toNat with
            | none => none
            | some a =>
              if target ≤ (a.size : Int) then
                binarySearchGo array target n left ((left + right) / 2 - 1) (some a)
              else
                binarySearchGo array target n ((left + right) / 2 + 1) right result
          else result) = result
        rw [if_neg hlr]
      rw [hstep]
      exact binarySearchFinal array target left right result hlr hleft hres

lemma binarySearch_correct (array : List TrashSlot) (target : Int)
    (hmono : ∀ i j : Nat, i ≤ j → j < array.length →
      fitsAt array target i → fitsAt array target j) :
    ((∀ i : Nat, i < array.length → ¬ fitsAt array target i) ∧
        binarySearch array target = none) ∨
    (∃ j : Nat, j < array.length ∧ fitsAt array target j ∧
      (∀ i : Nat, i < j → ¬ fitsAt array target i) ∧
      binarySearch array target = some (array.getD j slot0)) := by
  have h := binarySearchGo_correct array target hmono array.length 0
    ((array.length : Int) - 1) none (by omega) (by omega) (by omega)
    (fun i hi => absurd hi (by omega)) (Or.inl ⟨rfl, rfl⟩)
  simpa only [binarySearch] using h

/-- C10: on a non-empty free list sorted ascending by the size field,
findSmallestFit("size", fit) returns an element whose size is the
smallest size in the list that is ≥ fit — the result is a member, it
fits, and no fitting member is smaller — and it returns null (none)
when no element's size is ≥ fit. -/
theorem c10_findSmallestFit_correct (array : List TrashSlot) (fit : Int)
    (hne : array ≠ [])
    (hs : List.Sorted (fun a b : TrashSlot => a.size ≤ b.size) array) :
    (∀ x, findSmallestFit array fit = some x →
        x ∈ array ∧ fit ≤ (x.size : Int) ∧
          ∀ y ∈ array, fit ≤ (y.size : Int) → x.size ≤ y.size) ∧
    ((∃ y ∈ array, fit ≤ (y.size : Int)) → ∃ x, findSmallestFit array fit = some x) ∧
    ((∀ y ∈ array, ¬ fit ≤ (y.size : Int)) → findSmallestFit array fit = none) := by
  have hmono : ∀ i j : Nat, i ≤ j → j < array.length →
      fitsAt array fit i → fitsAt array fit j := by
    intro i j hij hj hfit
    have hsz : ((array.getD i slot0).size : Int) ≤ ((array.getD j slot0).size : Int) := by
      exact_mod_cast sorted_size_mono array hs i j hij hj
    exact le_trans hfit hsz
  have hlast := getLast?_eq_getD array hne
  have hlen0 : 0 < array.length := List.length_pos.mpr hne
  have hunfold : findSmallestFit array fit =
      (if fit ≤ ((array.getD (array.length - 1) slot0).size : Int) then
        match binarySearch array fit with
        | some smallestFit => some smallestFit
        | none => none
      else none) := by
    unfold findSmallestFit
    rw [hlast]
  rcases binarySearch_correct array fit hmono with ⟨hnone, hbs⟩ | ⟨j, hj, hfitj, hminj, hbs⟩
  · have hf : findSmallestFit array fit = none := by
      rw [hunfold, hbs]
      split
      · rfl
      · rfl
    refine ⟨?_, ?_, ?_⟩
    · intro x hx
      rw [hf] at hx
      exact Option.noConfusion hx
    · rintro ⟨y, hy, hfy⟩
      obtain ⟨⟨i, hi⟩, hgi⟩ := List.mem_iff_get.mp hy
      exfalso
      apply hnone i hi
      show fit ≤ ((array.getD i slot0).size : Int)
      rw [getD_eq_get array i hi, hgi]
      exact hfy
    · intro _
      exact hf
  · have hcond : fit ≤ ((array.getD (array.length - 1) slot0).size : Int) :=
      hmono j (array.length - 1) (by omega) (by omega) hfitj
    have hf : findSmallestFit array fit = some (array.getD j slot0) := by
      rw [hunfold, hbs, if_pos hcond]
    refine ⟨?_, ?_, ?_⟩
    · intro x hx
      rw [hf] at hx
      obtain rfl : array.getD j slot0 = x := Option.some.inj hx
      refine ⟨getD_mem array j hj, hfitj, ?_⟩
      intro y hy hfy
      obtain ⟨⟨i, hi⟩, hgi⟩ := List.mem_iff_get.mp hy
      have hfi : fitsAt array fit i := by
        show fit ≤ ((array.getD i slot0).size : Int)
        rw [getD_eq_get array i hi, hgi]
        exact hfy
      have hji : j ≤ i := by
        by_contra hc
        exact hminj i (by omega) hfi
      have hsz := sorted_size_mono array hs j i hji hi
      rw [getD_eq_get array i hi, hgi] at hsz
      exact hsz
    · intro _
      exact ⟨array.getD j slot0, hf⟩
    · intro hall
      exfalso
      exact hall (array.getD j slot0) (getD_mem array j hj) hfitj

/-- C10 witness: the claim theorem applied to the concrete sorted free
list with sizes 2 and 5 at fit 3: findSmallestFit returns some slot, and
direct evaluation shows it is the size-5 slot. -/
theorem c10_witness :
    (∃ x, findSmallestFit
        [({ size := 2, position := 0, length := 3 } : TrashSlot),
          { size := 5, position := 1, length := 4 }] 3 = some x) ∧
    findSmallestFit
        [({ size := 2, position := 0, length := 3 } : TrashSlot),
          { size := 5, position := 1, length := 4 }] 3 =
      some { size := 5, position := 1, length := 4 } :=
  ⟨(c10_findSmallestFit_correct
      [({ size := 2, position := 0, length := 3 } : TrashSlot),
        { size := 5, position := 1, length := 4 }] 3
      (by decide) (by decide)).2.1
      ⟨{ size := 5, position := 1, length := 4 }, by decide, by decide⟩,
    by rfl⟩

end Spec2Proof
